import Mathlib

/-!
Verification development for the runtime-type-check library
(src/script/RuntimeTypeCheck.ts, the iteration that defines the
standalone `Cond` class, `RuntimeTypeCheck.assert`,
`#getMostRelevantFailingCondition`, `mergeDescriptorMessages`,
`compilePartialMessage`, `assertFind`, `getMessageIs`,
`getMessageExpected` and `assertAndThrow`; plus the
`getDescriptorPassCount` helper of the neighbouring iteration).

Modelling decisions, shared by all definitions below:

* JavaScript condition objects are shared by reference; the object graph
  is modelled as a heap (`Heap := List Condition`) and a condition
  reference is its index (`Nat`) into that heap.  Reference identity
  (`===`, `Array.prototype.includes`) becomes index equality.
* JavaScript values are modelled by the closed inductive `Value`
  (numbers restricted to integers; no claim below needs fractional
  numbers, `NaN`, symbols or bigints).
* The evaluator methods recurse through `Condition.conditions` without
  any structural bound, so they are embedded with an explicit fuel
  parameter that is consumed once per recursive descent into a
  prerequisite descriptor; `none` means the fuel ran out.  Loops over
  lists are embedded as structurally recursive helper functions that
  receive the fuelled recursive call as a function argument `rec`, so
  every definition reduces by kernel computation.
* JavaScript `-Infinity` (the initial score of the relevance resolver)
  is modelled as `none : Option Int`, with the arithmetic/comparison
  helpers `eaddInt`, `edec1`, `elt` mirroring IEEE behaviour of
  `-Infinity` under integer addition and `<`/`>`.
-/

/-- JavaScript values, restricted to the shapes exercised by the claims.
Numbers are modelled as integers. -/
inductive Value where
  | num (n : Int)
  | str (s : String)
  | bool (b : Bool)
  | arr (l : List Value)
  | null
  | undef

/-- `RuntimeTypeCheck.getType`: `typeof` with the additional tags
`array`, `NaN` and `null`.  Arrays are tagged before the `object`
fallback and `null` before `object`, exactly as in the source; the
`NaN` branch cannot trigger because numbers are modelled as integers. -/
def getType : Value → String
  | .arr _ => "array"
  | .null => "null"
  | .str _ => "string"
  | .num _ => "number"
  | .bool _ => "boolean"
  | .undef => "undefined"

/-- `RuntimeTypeCheck.getArticle`: "an" iff the first character is a
vowel (case-insensitively), mirroring the regex test `/^[aeiou]/i`. -/
def getArticle (s : String) : String :=
  match s.data with
  | [] => "a"
  | c :: _ => if ['a', 'e', 'i', 'o', 'u'].contains c.toLower then "an" else "a"

/-- `String.prototype.trim` on the character list of a string
(strip leading and trailing whitespace). -/
def jsTrimChars (l : List Char) : List Char :=
  ((l.dropWhile Char.isWhitespace).reverse.dropWhile Char.isWhitespace).reverse

/-- `String.prototype.trim`. -/
def jsTrim (s : String) : String :=
  String.mk (jsTrimChars s.data)

/-- `String.prototype.startsWith`, on character lists so that
it reduces by kernel computation. -/
def jsStartsWith (s pre : String) : Bool :=
  pre.data.isPrefixOf s.data

/-- `Array.prototype.join(sep)`. -/
def joinSep (sep : String) : List String → String
  | [] => ""
  | x :: rest => rest.foldl (fun acc y => acc ++ sep ++ y) x

/-- The `shouldBe` message object of a condition: the three optional
parts `before`, `type`, `after` (interface `Message`). -/
structure Message where
  before : Option String
  type : Option String
  after : Option String
deriving DecidableEq, Repr

/-- The merge accumulator (interface `MessagePartial`): `before` and
`after` are multi-valued, `type` is single-valued. -/
structure MessagePartial where
  before : List String
  type : Option String
  after : List String
deriving DecidableEq, Repr

/-- Data handed to a computed `is` message
(interface `IsData` of the modelled iteration: value, extended type
tag, indefinite article). -/
structure IsData where
  val : Value
  type : String
  article : String

/-- The `is` field of a condition: a literal string or a function of
`IsData` (source: `is: string | ((data: IsData) => string)`). -/
inductive IsMsg where
  | lit (s : String)
  | fn (f : IsData → String)

/-- A condition reference is a heap index; `ConditionList` is either a
single condition or an AND-group of conditions
(source: `type ConditionList = Condition | Condition[]`). -/
abbrev ConditionList := Sum Nat (List Nat)

/-- `type Descriptor = ConditionList[]`: an OR-list of AND-groups. -/
abbrev Descriptor := List ConditionList

/-- A condition node (interface `Condition`): optional prerequisite
descriptor, the assert predicate, and the two message fields. -/
structure Condition where
  conditions : Option Descriptor
  assert : Value → Bool
  shouldBe : Message
  is : IsMsg

/-- The shared condition graph: conditions addressed by index. -/
abbrev Heap := List Condition

/-- Dereference a condition index.  An out-of-range index (which cannot
arise from a well-formed JavaScript object graph) yields an inert
condition with no prerequisites. -/
def deref (hp : Heap) (i : Nat) : Condition :=
  hp.getD i ⟨none, fun _ => false, ⟨none, none, none⟩, .lit ""⟩

/-- `RuntimeTypeCheck.#resolveConditionList`: normalise a
`ConditionList` to an array. -/
def resolveConditionList : ConditionList → List Nat
  | .inl i => [i]
  | .inr l => l

/-- The prerequisite-checking loop at the top of each alternative in
`RuntimeTypeCheck.assert`: for each condition of the AND-group that has
a `conditions` field, recursively assert that descriptor; return
`false` for the whole alternative as soon as one fails
(source lines: `for (const cond of condList) { if (cond.conditions) {
const res = this.assert(val, ...cond.conditions); if (!res) return res; } }`). -/
def assertPrereqs (rec : Descriptor → Option Bool) (hp : Heap) : List Nat → Option Bool
  | [] => some true
  | i :: rest =>
    match (deref hp i).conditions with
    | some P => do
      let r ← rec P
      if r then assertPrereqs rec hp rest else pure false
    | none => assertPrereqs rec hp rest

/-- The OR-loop of `RuntimeTypeCheck.assert` (`descriptor.some(...)`):
an alternative holds when all prerequisites hold and then
`condList.every(cond => cond.assert(val))` holds. -/
def assertAlts (rec : Descriptor → Option Bool) (hp : Heap) (v : Value) : Descriptor → Option Bool
  | [] => some false
  | cl :: rest => do
    let conds := resolveConditionList cl
    let pre ← assertPrereqs rec hp conds
    if pre then
      if conds.all (fun i => (deref hp i).assert v) then pure true
      else assertAlts rec hp v rest
    else assertAlts rec hp v rest

namespace RuntimeTypeCheck

/-- `RuntimeTypeCheck.assert(val, ...descriptor)`, fuelled: one unit of
fuel per recursive descent into a prerequisite descriptor.  `none`
means the recursion exceeded the fuel (in JavaScript: the call never
returns on its own). -/
def assert : Nat → Heap → Value → Descriptor → Option Bool
  | 0, _, _, _ => none
  | f + 1, hp, v, d => assertAlts (assert f hp v) hp v d

end RuntimeTypeCheck

/-- Declarative satisfaction: `Sat hp v d` holds iff some alternative
of `d` is fully satisfied by `v` — every condition of the AND-group has
its prerequisite descriptor (when present) recursively satisfied by the
same `v`, and its own assert predicate holds on `v`. -/
inductive Sat (hp : Heap) (v : Value) : Descriptor → Prop where
  | head (cl : ConditionList) (rest : Descriptor)
      (hpre : ∀ i ∈ resolveConditionList cl,
        ∀ P, (deref hp i).conditions = some P → Sat hp v P)
      (hself : ∀ i ∈ resolveConditionList cl, (deref hp i).assert v = true) :
      Sat hp v (cl :: rest)
  | tail (cl : ConditionList) (rest : Descriptor) (h : Sat hp v rest) :
      Sat hp v (cl :: rest)

/-- All prerequisites of the conditions in an AND-group are satisfied
(when present). -/
def PrereqsOk (hp : Heap) (v : Value) (conds : List Nat) : Prop :=
  ∀ i ∈ conds, ∀ P, (deref hp i).conditions = some P → Sat hp v P

/-- Scores of the relevance resolver live in the range of JavaScript
numbers actually reached: integers and `-Infinity`.  `none` models
`-Infinity`.  `elt a b` is the strict comparison `a < b` (so `x > y`
in the source becomes `elt y x`); note `-Infinity > -Infinity` is
false. -/
def elt : Option Int → Option Int → Bool
  | none, none => false
  | none, some _ => true
  | some _, none => false
  | some a, some b => a < b

/-- `score + levelCount` (adding a plain integer to a possibly
`-Infinity` score; `-Infinity + k = -Infinity`). -/
def eaddInt (a : Option Int) (k : Int) : Option Int :=
  a.map (· + k)

/-- `result.count--` (decrement, `-Infinity - 1 = -Infinity`). -/
def edec1 (a : Option Int) : Option Int :=
  a.map (· - 1)

/-- The `{ count, failing }` record threaded through
`RuntimeTypeCheck.#getMostRelevantFailingCondition`
(source interface `FailingData`). -/
structure FailingData where
  count : Option Int
  failing : Option Nat
deriving DecidableEq, Repr

/-- Inner loop of `#getMostRelevantFailingCondition` over the
conditions of one AND-group.  State: the shared mutable
`ignoreConditions` array `ig`, the alternative's `firstFail`,
`maxCount` and `levelCount`.  A condition already in `ig` is skipped
entirely; otherwise it is pushed, its non-empty prerequisite
descriptor is resolved recursively (`rec`, which threads `ig`) with
the depth penalty `result.count--`, and then exactly as in the source:
if there is no child failure, the condition's own predicate either
adds 10 to `levelCount` or becomes the failure; `maxCount` takes the
maximum `result.count`; `firstFail ||= result.failing`. -/
def relevantConds (rec : Descriptor → List Nat → Option (FailingData × List Nat))
    (hp : Heap) (v : Value) :
    List Nat → List Nat → Option Nat → Option Int → Int →
    Option (Option Nat × Option Int × Int × List Nat)
  | [], ig, ff, mc, lc => some (ff, mc, lc, ig)
  | i :: rest, ig, ff, mc, lc =>
    if i ∈ ig then relevantConds rec hp v rest ig ff mc lc
    else
      let ig' := ig ++ [i]
      let c := deref hp i
      match (match c.conditions with
             | some P =>
               if 0 < P.length then
                 (rec P ig').map (fun (r : FailingData × List Nat) => ((⟨edec1 r.1.count, r.1.failing⟩ : FailingData), r.2))
               else some ((⟨some 0, none⟩ : FailingData), ig')
             | none => some ((⟨some 0, none⟩ : FailingData), ig')) with
      | none => none
      | some (res, ig'') =>
        let (fail2, lc') :=
          match res.failing with
          | none => if c.assert v then (none, lc + 10) else (some i, lc)
          | some j => (some j, lc)
        let mc' := if elt mc res.count then res.count else mc
        relevantConds rec hp v rest ig'' (ff.orElse fun _ => fail2) mc' lc'

/-- Outer loop of `#getMostRelevantFailingCondition` over the
alternatives: each alternative's total is `maxCount + levelCount`, and
the running maximum is replaced only on a strictly greater total
(ties keep the earlier alternative). -/
def relevantAlts (rec : Descriptor → List Nat → Option (FailingData × List Nat))
    (hp : Heap) (v : Value) :
    Descriptor → FailingData → List Nat → Option (FailingData × List Nat)
  | [], mx, ig => some (mx, ig)
  | cl :: rest, mx, ig => do
    let (ff, mc, lc, ig') ← relevantConds rec hp v (resolveConditionList cl) ig none none 0
    let tot := eaddInt mc lc
    relevantAlts rec hp v rest (if elt mx.count tot then ⟨tot, ff⟩ else mx) ig'

/-- `RuntimeTypeCheck.#getMostRelevantFailingCondition(val, descriptor,
ignoreConditions)`, fuelled.  The returned list is the final state of
the shared `ignoreConditions` array. -/
def relevantAux : Nat → Heap → Value → Descriptor → List Nat → Option (FailingData × List Nat)
  | 0, _, _, _, _ => none
  | f + 1, hp, v, d, ig => relevantAlts (relevantAux f hp v) hp v d ⟨none, none⟩ ig

namespace RuntimeTypeCheck

/-- `RuntimeTypeCheck.getMostRelevantFailingCondition(val, ...descriptor)`:
run the private helper with a fresh `ignoreConditions` array and keep
the failing condition. -/
def getMostRelevantFailingCondition (f : Nat) (hp : Heap) (v : Value) (d : Descriptor) :
    Option (Option Nat) :=
  (relevantAux f hp v d []).map (·.1.failing)

/-- `RuntimeTypeCheck.assertFind(val, ...descriptor)` of the modelled
iteration: `undefined` when the descriptor asserts, otherwise the most
relevant failing condition. -/
def assertFind (f : Nat) (hp : Heap) (v : Value) (d : Descriptor) : Option (Option Nat) := do
  let b ← assert f hp v d
  if b then pure none
  else getMostRelevantFailingCondition f hp v d

end RuntimeTypeCheck

/-- How the claim gates the `+10` bonus of a passing condition.
`byChildFailure` is the source behaviour (`if (!result.failing)`),
`bySatisfaction` is the claim's wording ("whose prerequisites are
satisfied or absent"). -/
inductive GateMode where
  | bySatisfaction
  | byChildFailure

/-- The claim's description of the per-condition step, identical to
`relevantConds` except that the `+10` bonus is gated by `gm`:
either by the absence of a reported child failure (the source's rule)
or by actual satisfaction of the prerequisite descriptor (`sat`,
instantiated with the fuelled evaluator; an absent or empty
prerequisite descriptor counts as satisfied). -/
def relevantSpecConds (gm : GateMode) (sat : Descriptor → Bool)
    (rec : Descriptor → List Nat → Option (FailingData × List Nat))
    (hp : Heap) (v : Value) :
    List Nat → List Nat → Option Nat → Option Int → Int →
    Option (Option Nat × Option Int × Int × List Nat)
  | [], ig, ff, mc, lc => some (ff, mc, lc, ig)
  | i :: rest, ig, ff, mc, lc =>
    if i ∈ ig then relevantSpecConds gm sat rec hp v rest ig ff mc lc
    else
      let ig' := ig ++ [i]
      let c := deref hp i
      match (match c.conditions with
             | some P =>
               if 0 < P.length then
                 (rec P ig').map (fun (r : FailingData × List Nat) => ((⟨edec1 r.1.count, r.1.failing⟩ : FailingData), r.2))
               else some ((⟨some 0, none⟩ : FailingData), ig')
             | none => some ((⟨some 0, none⟩ : FailingData), ig')) with
      | none => none
      | some (res, ig'') =>
        let gate : Bool :=
          match gm with
          | .byChildFailure => res.failing.isNone
          | .bySatisfaction =>
            match c.conditions with
            | none => true
            | some P => P.length == 0 || sat P
        let lc' := if gate && c.assert v then lc + 10 else lc
        let fail2 :=
          match res.failing with
          | none => if c.assert v then none else some i
          | some j => some j
        let mc' := if elt mc res.count then res.count else mc
        relevantSpecConds gm sat rec hp v rest ig'' (ff.orElse fun _ => fail2) mc' lc'

/-- Alternative loop of the claim-described resolver (same maximum and
tie-break rule as `relevantAlts`). -/
def relevantSpecAlts (gm : GateMode) (sat : Descriptor → Bool)
    (rec : Descriptor → List Nat → Option (FailingData × List Nat))
    (hp : Heap) (v : Value) :
    Descriptor → FailingData → List Nat → Option (FailingData × List Nat)
  | [], mx, ig => some (mx, ig)
  | cl :: rest, mx, ig => do
    let (ff, mc, lc, ig') ← relevantSpecConds gm sat rec hp v (resolveConditionList cl) ig none none 0
    let tot := eaddInt mc lc
    relevantSpecAlts gm sat rec hp v rest (if elt mx.count tot then ⟨tot, ff⟩ else mx) ig'

/-- The claim-described resolver, fuelled; prerequisite satisfaction
(for the `bySatisfaction` gate) is decided by the fuelled evaluator. -/
def relevantSpecAux : GateMode → Nat → Heap → Value → Descriptor → List Nat →
    Option (FailingData × List Nat)
  | _, 0, _, _, _, _ => none
  | gm, f + 1, hp, v, d, ig =>
    relevantSpecAlts gm (fun P => RuntimeTypeCheck.assert f hp v P == some true)
      (relevantSpecAux gm f hp v) hp v d ⟨none, none⟩ ig

/-- Top-level claim-described resolver. -/
def relevantFailingSpec (gm : GateMode) (f : Nat) (hp : Heap) (v : Value) (d : Descriptor) :
    Option (Option Nat) :=
  (relevantSpecAux gm f hp v d []).map (·.1.failing)

/-- Inner loop of `#getDescriptorPassCountHelper` over one AND-group:
skip visited conditions, push fresh ones, add the recursive count of
the prerequisite descriptor (when the `conditions` field is present)
and then 1 if the condition's own predicate passes. -/
def passCountConds (rec : Descriptor → List Nat → Option (Int × List Nat))
    (hp : Heap) (v : Value) : List Nat → Int → List Nat → Option (Int × List Nat)
  | [], cnt, ig => some (cnt, ig)
  | i :: rest, cnt, ig =>
    if i ∈ ig then passCountConds rec hp v rest cnt ig
    else
      let ig' := ig ++ [i]
      let c := deref hp i
      match (match c.conditions with
             | some P => (rec P ig').map (fun r => (cnt + r.1, r.2))
             | none => some (cnt, ig')) with
      | none => none
      | some (cnt', ig'') =>
        passCountConds rec hp v rest (if c.assert v then cnt' + 1 else cnt') ig''

/-- Outer loop of `#getDescriptorPassCountHelper` over alternatives. -/
def passCountAlts (rec : Descriptor → List Nat → Option (Int × List Nat))
    (hp : Heap) (v : Value) : Descriptor → Int → List Nat → Option (Int × List Nat)
  | [], cnt, ig => some (cnt, ig)
  | cl :: rest, cnt, ig => do
    let (cnt', ig') ← passCountConds rec hp v (resolveConditionList cl) cnt ig
    passCountAlts rec hp v rest cnt' ig'

/-- `RuntimeTypeCheck.#getDescriptorPassCountHelper(val, descriptor,
ignoreConditions)`, fuelled; each helper call starts its own
`count = 0` and callers add the returned count. -/
def passCountAux : Nat → Heap → Value → Descriptor → List Nat → Option (Int × List Nat)
  | 0, _, _, _, _ => none
  | f + 1, hp, v, d, ig => passCountAlts (passCountAux f hp v) hp v d 0 ig

namespace RuntimeTypeCheck

/-- `RuntimeTypeCheck.getDescriptorPassCount(val, ...descriptor)`:
run the helper with a fresh `ignoreConditions` array. -/
def getDescriptorPassCount (f : Nat) (hp : Heap) (v : Value) (d : Descriptor) : Option Int :=
  (passCountAux f hp v d []).map (·.1)

end RuntimeTypeCheck

/-- JavaScript truthiness of an optional string
(`undefined` and `""` are falsy). -/
def jsFalsyStr : Option String → Bool
  | none => true
  | some s => s == ""

/-- `makePartial(message)` of `#mergeDescriptorMessagesHelper`:
a truthy (present and non-empty) `before`/`after` string becomes a
singleton list. -/
def makePartial (m : Message) : MessagePartial where
  before := match m.before with | some s => if s == "" then [] else [s] | none => []
  type := m.type
  after := match m.after with | some s => if s == "" then [] else [s] | none => []

/-- `mergeMessages(target, source)` of `#mergeDescriptorMessagesHelper`:
the (always truthy) `before`/`after` arrays are appended onto the
target; `type` is only written when the target's `type` is falsy
(first writer wins). -/
def mergeMessages (target source : MessagePartial) : MessagePartial where
  before := target.before ++ source.before
  type := if jsFalsyStr target.type then source.type else target.type
  after := target.after ++ source.after

/-- `messageIsEqual`: element-wise equality of `before` and `after`
and `===` on `type`. -/
def msgEq (a b : MessagePartial) : Bool :=
  a.before == b.before && a.after == b.after && a.type == b.type

/-- The final `messageList.filter((message, i, arr) => ...)` of
`#mergeDescriptorMessagesHelper`: an element is dropped when a
structurally equal element occurs later in the list (so of a duplicate
group the last occurrence survives). -/
def filterDup : List MessagePartial → List MessagePartial
  | [] => []
  | x :: rest => if rest.any (fun y => msgEq x y) then filterDup rest else x :: filterDup rest

/-- First-occurrence deduplication, following the claim's words
("preserving the first occurrence of each duplicate group"): an
element is dropped when a structurally equal element occurred
earlier. -/
def dedupFirstAux (seen : List MessagePartial) : List MessagePartial → List MessagePartial
  | [] => []
  | x :: rest =>
    if seen.any (fun y => msgEq y x) then dedupFirstAux seen rest
    else x :: dedupFirstAux (seen ++ [x]) rest

/-- First-occurrence deduplication from an empty memory. -/
def dedupFirst (l : List MessagePartial) : List MessagePartial :=
  dedupFirstAux [] l

/-- `results.push(this.#mergeDescriptorMessagesHelper(cond.conditions))`
for every condition of the AND-group (the recursive resolution of each
condition's prerequisite descriptor, `undefined` allowed). -/
def condsResults (rec : Option Descriptor → Option (List MessagePartial)) (hp : Heap) :
    List Nat → Option (List (List MessagePartial))
  | [] => some []
  | i :: rest => do
    let r ← rec (deref hp i).conditions
    let rs ← condsResults rec hp rest
    pure (r :: rs)

/-- The alternative loop of `#mergeDescriptorMessagesHelper`: an empty
AND-group is skipped; otherwise the first condition's `shouldBe` seeds
`currentMessage`, the remaining AND-siblings are merged in, each
condition's prerequisite descriptor is recursively resolved, every
single-fragment result is merged into `currentMessage`, every
multi-fragment result expands the disjunction (each branch merged with
`currentMessage` and pushed), and only if no multi-fragment result
occurred is the accumulated `currentMessage` itself pushed. -/
def mergeAlts (rec : Option Descriptor → Option (List MessagePartial)) (hp : Heap) :
    Descriptor → List MessagePartial → Option (List MessagePartial)
  | [], acc => some acc
  | cl :: rest, acc =>
    match resolveConditionList cl with
    | [] => mergeAlts rec hp rest acc
    | c0 :: others => do
      let cur0 := others.foldl
        (fun cur i => mergeMessages cur (makePartial (deref hp i).shouldBe))
        (makePartial (deref hp c0).shouldBe)
      let results ← condsResults rec hp (c0 :: others)
      let current := results.foldl
        (fun cur r => match r with | [m] => mergeMessages cur m | _ => cur) cur0
      let pushed := results.foldl
        (fun (p : List MessagePartial × Bool) r =>
          if 1 < r.length then (p.1 ++ r.map (fun m => mergeMessages m current), true) else p)
        ([], false)
      let acc' := acc ++ pushed.1
      mergeAlts rec hp rest (if pushed.2 then acc' else acc' ++ [current])

/-- `RuntimeTypeCheck.#mergeDescriptorMessagesHelper(descriptor)`,
fuelled: an absent descriptor yields the single empty fragment; a
present one is folded alternative by alternative and deduplicated by
the source's later-occurrence filter. -/
def mergeHelperAux : Nat → Heap → Option Descriptor → Option (List MessagePartial)
  | 0, _, _ => none
  | f + 1, hp, od =>
    match od with
    | none => some [⟨[], none, []⟩]
    | some d => (mergeAlts (mergeHelperAux f hp) hp d []).map filterDup

/-- The claim-described variant of `#mergeDescriptorMessagesHelper`:
identical merging, but deduplication preserves the first occurrence of
each duplicate group. -/
def mergeSpecFirstAux : Nat → Heap → Option Descriptor → Option (List MessagePartial)
  | 0, _, _ => none
  | f + 1, hp, od =>
    match od with
    | none => some [⟨[], none, []⟩]
    | some d => (mergeAlts (mergeSpecFirstAux f hp) hp d []).map dedupFirst

namespace RuntimeTypeCheck

/-- `RuntimeTypeCheck.mergeDescriptorMessages(...descriptor)`. -/
def mergeDescriptorMessages (f : Nat) (hp : Heap) (d : Descriptor) :
    Option (List MessagePartial) :=
  mergeHelperAux f hp (some d)

end RuntimeTypeCheck

/-- The merge step of the engine's stable top-down merge sort under the
comparator `str => str.startsWith('that') ? 1 : -1` of
`compilePartialMessage`.  Because the comparator only inspects its
first argument, the merge takes the left head whenever it does not
start with "that" and otherwise drains the whole right run first.
This is the sort semantics pinned by the repository's own test
expectations (src/test/main.js, "Compiled messages » Deep OR": the
input `after` order `["that has a baz", "that is a foobar",
"of length 5"]` renders as "of length 5 that is a foobar and has a
baz").  An ECMAScript `Array.prototype.sort` with this comparator is
implementation-defined, so the embedding fixes the behaviour the
repository's tests require. -/
def mergeThat : List String → List String → List String
  | [], r => r
  | a :: l, r => if jsStartsWith a "that" then r ++ (a :: l) else a :: mergeThat l r

/-- Top-down merge sort (split in halves) with `mergeThat`, fuelled by
the list length so that it reduces by kernel computation. -/
def sortThatAux : Nat → List String → List String
  | 0, l => l
  | _, [] => []
  | _, [a] => [a]
  | f + 1, l =>
    mergeThat (sortThatAux f (l.take (l.length / 2))) (sortThatAux f (l.drop (l.length / 2)))

/-- `.sort(str => str.startsWith('that') ? 1 : -1)` as pinned by the
repository's tests (see `mergeThat`). -/
def sortThat (l : List String) : List String :=
  sortThatAux l.length l

/-- The `hadFirstThat` rewriting pass of `compilePartialMessage`: every
"that"-prefixed item after the first has its leading "that" replaced by
"and" (`str.replace('that', 'and')`; under the `startsWith` guard the
first occurrence is the prefix). -/
def andRewriteGo : Bool → List String → List String
  | _, [] => []
  | had, s :: rest =>
    if jsStartsWith s "that" then
      if had then String.mk ('a' :: 'n' :: 'd' :: s.data.drop 4) :: andRewriteGo had rest
      else s :: andRewriteGo true rest
    else s :: andRewriteGo had rest

namespace RuntimeTypeCheck

/-- `RuntimeTypeCheck.compilePartialMessage(messagePartial)`:
trimmed `before` items joined by ", " plus a space; the `type` (or the
placeholder `<unknown>` when absent); then, when `after` items exist, a
space and the trimmed `after` items sorted by the "that"-last
comparator, rewritten by the `hadFirstThat` pass and joined by single
spaces. -/
def compilePartialMessage (mp : MessagePartial) : String :=
  let out := if 0 < mp.before.length then joinSep ", " (mp.before.map jsTrim) ++ " " else ""
  let out := out ++ mp.type.getD "<unknown>"
  if 0 < mp.after.length then
    out ++ " " ++ joinSep " " (andRewriteGo false (sortThat (mp.after.map jsTrim)))
  else out

/-- `RuntimeTypeCheck.getMessageExpected(...descriptor)`: merge, compile
each fragment, join with " OR ". -/
def getMessageExpected (f : Nat) (hp : Heap) (d : Descriptor) : Option String :=
  (mergeDescriptorMessages f hp d).map (fun l => joinSep " OR " (l.map compilePartialMessage))

/-- `RuntimeTypeCheck.getMessageIs(val, ...descriptor)`: the `is`
message of the condition found by `assertFind` (a computed `is` is
applied to the value, its extended type tag and the matching
indefinite article), or `''` when the descriptor asserts. -/
def getMessageIs (f : Nat) (hp : Heap) (v : Value) (d : Descriptor) : Option String := do
  let c ← assertFind f hp v d
  match c with
  | some i =>
    match (deref hp i).is with
    | .lit s => pure s
    | .fn g => pure (g ⟨v, getType v, getArticle (getType v)⟩)
  | none => pure ""

end RuntimeTypeCheck

/-- `class TypeCheckError extends Error`: the two derived strings. -/
structure TypeCheckError where
  expected : String
  is : String
deriving DecidableEq, Repr

/-- The message built in the `TypeCheckError` constructor:
`` `Expected ${expected}, got ${is}` `` (no trailing period). -/
def TypeCheckError.message (e : TypeCheckError) : String :=
  "Expected " ++ e.expected ++ ", got " ++ e.is

namespace RuntimeTypeCheck

/-- `RuntimeTypeCheck.assertAndThrow(val, ...descriptor)`: on a failed
assertion, throw a `TypeCheckError` built from `getMessageExpected` and
`getMessageIs` (modelled as `Except.error`); otherwise return `true`. -/
def assertAndThrow (f : Nat) (hp : Heap) (v : Value) (d : Descriptor) :
    Option (Except TypeCheckError Bool) := do
  let b ← assert f hp v d
  if !b then do
    let exp ← getMessageExpected f hp d
    let isv ← getMessageIs f hp v d
    pure (Except.error ⟨exp, isv⟩)
  else pure (Except.ok true)

end RuntimeTypeCheck

/-- Instrumented `condList.every(cond => cond.assert(val))`: records
the index of every condition whose own predicate is invoked (the loop
stops after the first failing predicate). -/
def assertEvery (hp : Heap) (v : Value) : List Nat → List Nat → Bool × List Nat
  | [], log => (true, log)
  | i :: rest, log =>
    let log' := log ++ [i]
    if (deref hp i).assert v then assertEvery hp v rest log' else (false, log')

/-- Instrumented prerequisite loop of `RuntimeTypeCheck.assert`
(see `assertPrereqs`): the recursive call threads the invocation log. -/
def assertInstrPrereqs (rec : Descriptor → List Nat → Option (Bool × List Nat)) (hp : Heap) :
    List Nat → List Nat → Option (Bool × List Nat)
  | [], log => some (true, log)
  | i :: rest, log =>
    match (deref hp i).conditions with
    | some P => do
      let (r, log') ← rec P log
      if r then assertInstrPrereqs rec hp rest log' else pure (false, log')
    | none => assertInstrPrereqs rec hp rest log

/-- Instrumented OR-loop of `RuntimeTypeCheck.assert`
(see `assertAlts`). -/
def assertInstrAlts (rec : Descriptor → List Nat → Option (Bool × List Nat))
    (hp : Heap) (v : Value) : Descriptor → List Nat → Option (Bool × List Nat)
  | [], log => some (false, log)
  | cl :: rest, log => do
    let conds := resolveConditionList cl
    let (pre, log') ← assertInstrPrereqs rec hp conds log
    if pre then
      match assertEvery hp v conds log' with
      | (true, log'') => pure (true, log'')
      | (false, log'') => assertInstrAlts rec hp v rest log''
    else assertInstrAlts rec hp v rest log'

/-- `RuntimeTypeCheck.assert`, instrumented with the list of condition
indices whose own `assert` predicate is invoked, in invocation order
(duplicates possible).  Its boolean component agrees with
`RuntimeTypeCheck.assert` (proved below). -/
def assertInstr : Nat → Heap → Value → Descriptor → List Nat → Option (Bool × List Nat)
  | 0, _, _, _, _ => none
  | f + 1, hp, v, d, log => assertInstrAlts (assertInstr f hp v) hp v d log

/-- Instrumented inner loop of `#getMostRelevantFailingCondition`
(see `relevantConds`): additionally records the index of every
condition whose own predicate is invoked (the source invokes
`cond.assert(val)` exactly when the recursive result carries no
failing condition). -/
def relevantInstrConds
    (rec : Descriptor → List Nat → List Nat → Option (FailingData × List Nat × List Nat))
    (hp : Heap) (v : Value) :
    List Nat → List Nat → List Nat → Option Nat → Option Int → Int →
    Option (Option Nat × Option Int × Int × List Nat × List Nat)
  | [], ig, log, ff, mc, lc => some (ff, mc, lc, ig, log)
  | i :: rest, ig, log, ff, mc, lc =>
    if i ∈ ig then relevantInstrConds rec hp v rest ig log ff mc lc
    else
      let ig' := ig ++ [i]
      let c := deref hp i
      match (match c.conditions with
             | some P =>
               if 0 < P.length then
                 (rec P ig' log).map (fun (r : FailingData × List Nat × List Nat) =>
                   ((⟨edec1 r.1.count, r.1.failing⟩ : FailingData), r.2.1, r.2.2))
               else some ((⟨some 0, none⟩ : FailingData), ig', log)
             | none => some ((⟨some 0, none⟩ : FailingData), ig', log)) with
      | none => none
      | some (res, ig'', log') =>
        let (fail2, lc', log'') :=
          match res.failing with
          | none =>
            if c.assert v then (none, lc + 10, log' ++ [i]) else (some i, lc, log' ++ [i])
          | some j => (some j, lc, log')
        let mc' := if elt mc res.count then res.count else mc
        relevantInstrConds rec hp v rest ig'' log'' (ff.orElse fun _ => fail2) mc' lc'

/-- Instrumented alternative loop of `#getMostRelevantFailingCondition`
(see `relevantAlts`). -/
def relevantInstrAlts
    (rec : Descriptor → List Nat → List Nat → Option (FailingData × List Nat × List Nat))
    (hp : Heap) (v : Value) :
    Descriptor → FailingData → List Nat → List Nat →
    Option (FailingData × List Nat × List Nat)
  | [], mx, ig, log => some (mx, ig, log)
  | cl :: rest, mx, ig, log => do
    let (ff, mc, lc, ig', log') ←
      relevantInstrConds rec hp v (resolveConditionList cl) ig log none none 0
    let tot := eaddInt mc lc
    relevantInstrAlts rec hp v rest (if elt mx.count tot then ⟨tot, ff⟩ else mx) ig' log'

/-- `#getMostRelevantFailingCondition`, instrumented with the predicate
invocation log. -/
def relevantInstrAux : Nat → Heap → Value → Descriptor → List Nat → List Nat →
    Option (FailingData × List Nat × List Nat)
  | 0, _, _, _, _, _ => none
  | f + 1, hp, v, d, ig, log => relevantInstrAlts (relevantInstrAux f hp v) hp v d ⟨none, none⟩ ig log

/-- Number of distinct valid (in-range) condition indices in a visited
list: the measure that bounds the recursion depth of the visited-set
guarded traversals. -/
def vcount (hp : Heap) (ig : List Nat) : Nat :=
  (ig.toFinset.filter (fun i => i < hp.length)).card

/-- `Cond.#conditionTypeof(type)`: assert the extended type tag,
`shouldBe` is the tag, `is` echoes the value's tag. -/
def conditionTypeof (t : String) : Condition where
  conditions := none
  assert := fun v => getType v == t
  shouldBe := ⟨none, some t, none⟩
  is := .fn (fun d => d.type)

/-- A bare test-style condition (`{ conditions, assert }`) with inert
message fields. -/
def mkCond (cs : Option Descriptor) (a : Value → Bool) : Condition :=
  ⟨cs, a, ⟨none, none, none⟩, .lit ""⟩

/-- The heap of built-in conditions used by the claims, laid out as
  0 ↦ `Cond.number`, 1 ↦ `Cond.string`,
  2 ↦ `Cond.positive` (prerequisite `[Cond.number]`, `val > 0`,
       `shouldBe {before: 'positive'}`, `is 'a negative number or 0'`),
  3 ↦ `Cond.integer` (prerequisite `[Cond.number]`, `val % 1 === 0`,
       `shouldBe {type: 'integer'}`, `is 'a floating point number'`).
JavaScript comparison/modulo semantics are modelled on number values
(the only values these predicates are applied to in the claims). -/
def hpStd : Heap :=
  [conditionTypeof "number",
   conditionTypeof "string",
   ⟨some [Sum.inl 0], fun v => match v with | .num n => decide (0 < n) | _ => false,
    ⟨some "positive", none, none⟩, .lit "a negative number or 0"⟩,
   ⟨some [Sum.inl 0], fun v => match v with | .num n => decide (n % 1 = 0) | _ => false,
    ⟨none, some "integer", none⟩, .lit "a floating point number"⟩]

/-- The descriptor `(Cond.string, [Cond.positive, Cond.integer])` of the
README example. -/
def descStd : Descriptor := [Sum.inl 1, Sum.inr [2, 3]]

/-- Heap for the relevance-scoring counterexample: all predicates are
constant.  0 ↦ A (passes), 1 ↦ B (passes), 2 ↦ C (passes),
3 ↦ D (fails), 4 ↦ X (prerequisites `[[A], [B, C, D]]`, passes),
5 ↦ P1 (passes), 6 ↦ P2 (passes), 7 ↦ G (fails). -/
def hpScore : Heap :=
  [mkCond none (fun _ => true),
   mkCond none (fun _ => true),
   mkCond none (fun _ => true),
   mkCond none (fun _ => false),
   mkCond (some [Sum.inl 0, Sum.inr [1, 2, 3]]) (fun _ => true),
   mkCond none (fun _ => true),
   mkCond none (fun _ => true),
   mkCond none (fun _ => false)]

/-- The two alternatives `[X]` and `[P1, P2, G]` over `hpScore`. -/
def descScore : Descriptor := [Sum.inl 4, Sum.inr [5, 6, 7]]

/-- Heap for the resolver short-circuit counterexample:
0 ↦ P (no prerequisites, fails), 1 ↦ X (prerequisite `[P]`, passes). -/
def hpShort : Heap :=
  [mkCond none (fun _ => false),
   mkCond (some [Sum.inl 0]) (fun _ => true)]

/-- The single alternative `[P, X]` over `hpShort`. -/
def descShort : Descriptor := [Sum.inr [0, 1]]

/-- The pathological self-referential graph: condition 0 lists itself
as its own prerequisite. -/
def hpLoop : Heap := [mkCond (some [Sum.inl 0]) (fun _ => true)]

/-- Diamond-shaped heap for pass counting: 0 ↦ P (passes),
1 ↦ A and 2 ↦ B both list `[P]` as prerequisite and pass. -/
def hpDiamond : Heap :=
  [mkCond none (fun _ => true),
   mkCond (some [Sum.inl 0]) (fun _ => true),
   mkCond (some [Sum.inl 0]) (fun _ => true)]

/-- The single alternative `[A, B]` over `hpDiamond`. -/
def descDiamond : Descriptor := [Sum.inr [1, 2]]

/-- Heap for the deduplication counterexample: two conditions whose
`shouldBe` fragments differ (`{type: 'x'}` and `{type: 'y'}`). -/
def hpDup : Heap :=
  [⟨none, fun _ => true, ⟨none, some "x", none⟩, .lit ""⟩,
   ⟨none, fun _ => true, ⟨none, some "y", none⟩, .lit ""⟩]

/-- The alternatives `(x, y, x)`: a duplicate pair straddling a
distinct fragment. -/
def descDup : Descriptor := [Sum.inl 0, Sum.inl 1, Sum.inl 0]

/-- The identical alternative twice. -/
def descTwiceSame : Descriptor := [Sum.inl 0, Sum.inl 0]

/-- The fragment of the claim's rendering example. -/
def exFragment : MessagePartial :=
  ⟨["positive"], some "integer", ["that is divisible by 5", "that is greater than 25"]⟩

/-- One AND-group fully satisfied: all prerequisites (when present)
recursively satisfied and every own predicate passing. -/
def AltSat (hp : Heap) (v : Value) (conds : List Nat) : Prop :=
  PrereqsOk hp v conds ∧ ∀ i ∈ conds, (deref hp i).assert v = true

/-- A list splits into a block of non-"that" items followed by a block
of "that"-prefixed items. -/
def ThatSplit (l : List String) : Prop :=
  ∃ u w, l = u ++ w ∧ (∀ s ∈ u, jsStartsWith s "that" = false) ∧
    (∀ s ∈ w, jsStartsWith s "that" = true)

lemma sat_nil (hp : Heap) (v : Value) : ¬ Sat hp v ([] : Descriptor) := by
  intro h
  cases h

lemma sat_cons_iff (hp : Heap) (v : Value) (cl : ConditionList) (rest : Descriptor) :
    Sat hp v (cl :: rest) ↔ AltSat hp v (resolveConditionList cl) ∨ Sat hp v rest := by
  constructor
  · intro h
    cases h with
    | head _ _ hpre hself => exact Or.inl ⟨hpre, hself⟩
    | tail _ _ h => exact Or.inr h
  · intro h
    rcases h with ⟨hpre, hself⟩ | h
    · exact Sat.head cl rest hpre hself
    · exact Sat.tail cl rest h

lemma sat_of_empty_alt (hp : Heap) (v : Value) (d : Descriptor)
    (h : Sum.inr [] ∈ d) : Sat hp v d := by
  induction d with
  | nil => cases h
  | cons cl rest ih =>
    rcases List.mem_cons.mp h with rfl | h
    · exact Sat.head _ _ (by intro i hi; cases hi) (by intro i hi; cases hi)
    · exact Sat.tail _ _ (ih h)

lemma prereqsOk_nil (hp : Heap) (v : Value) : PrereqsOk hp v [] := by
  intro i hi
  cases hi

lemma prereqsOk_cons (hp : Heap) (v : Value) (i : Nat) (rest : List Nat) :
    PrereqsOk hp v (i :: rest) ↔
      (∀ P, (deref hp i).conditions = some P → Sat hp v P) ∧ PrereqsOk hp v rest := by
  constructor
  · intro h
    refine ⟨h i (List.mem_cons_self i rest), ?_⟩
    intro j hj
    exact h j (List.mem_cons_of_mem i hj)
  · rintro ⟨hi, hrest⟩ j hj
    rcases List.mem_cons.mp hj with rfl | hj
    · exact hi
    · exact hrest j hj

lemma assertPrereqs_iff (hp : Heap) (v : Value) (rec : Descriptor → Option Bool)
    (hrec : ∀ d b, rec d = some b → (b = true ↔ Sat hp v d)) :
    ∀ conds b, assertPrereqs rec hp conds = some b → (b = true ↔ PrereqsOk hp v conds) := by
  intro conds
  induction conds with
  | nil =>
    intro b h
    simp only [assertPrereqs, Option.some.injEq] at h
    subst h
    simp [prereqsOk_nil hp v]
  | cons i rest ih =>
    intro b h
    simp only [assertPrereqs] at h
    split at h
    case h_1 P hcond =>
      rcases hrecP : rec P with _ | r
      · rw [hrecP] at h
        simp at h
      · rw [hrecP] at h
        simp only [Option.bind_eq_bind, Option.some_bind] at h
        by_cases hr : r = true
        · subst hr
          simp only [if_true] at h
          rw [ih b h, prereqsOk_cons]
          have hsat : Sat hp v P := (hrec P true hrecP).mp rfl
          constructor
          · intro hrest
            refine ⟨?_, hrest⟩
            intro P' hP'
            rw [hcond] at hP'
            cases hP'
            exact hsat
          · exact fun hr => hr.2
        · simp only [Bool.not_eq_true] at hr
          subst hr
          simp only [Bool.false_eq_true, reduceIte, pure, Option.some.injEq] at h
          subst h
          simp only [Bool.false_eq_true, false_iff]
          rw [prereqsOk_cons]
          rintro ⟨hi, -⟩
          have := (hrec P false hrecP).mpr (hi P hcond)
          cases this
    case h_2 hcond =>
      rw [ih b h, prereqsOk_cons]
      constructor
      · intro hr
        refine ⟨?_, hr⟩
        intro P hP
        rw [hcond] at hP
        cases hP
      · exact fun hr => hr.2

lemma assertAlts_iff (hp : Heap) (v : Value) (rec : Descriptor → Option Bool)
    (hrec : ∀ d b, rec d = some b → (b = true ↔ Sat hp v d)) :
    ∀ d b, assertAlts rec hp v d = some b → (b = true ↔ Sat hp v d) := by
  intro d
  induction d with
  | nil =>
    intro b h
    simp only [assertAlts, Option.some.injEq] at h
    subst h
    simp [sat_nil hp v]
  | cons cl rest ih =>
    intro b h
    simp only [assertAlts] at h
    rcases hpre : assertPrereqs rec hp (resolveConditionList cl) with _ | pre
    · rw [hpre] at h
      simp at h
    · rw [hpre] at h
      simp only [Option.bind_eq_bind, Option.some_bind] at h
      have hpiff := assertPrereqs_iff hp v rec hrec (resolveConditionList cl) pre hpre
      by_cases hp' : pre = true
      · subst hp'
        simp only [if_true] at h
        by_cases hall : (resolveConditionList cl).all (fun i => (deref hp i).assert v) = true
        · rw [hall] at h
          simp only [if_true, pure, Option.some.injEq] at h
          subst h
          simp only [true_iff]
          refine Sat.head _ _ (hpiff.mp rfl) ?_
          intro i hi
          exact List.all_eq_true.mp hall i hi
        · simp only [Bool.not_eq_true] at hall
          rw [hall] at h
          simp only [Bool.false_eq_true, if_false] at h
          rw [ih b h, sat_cons_iff]
          constructor
          · exact fun hs => Or.inr hs
          · rintro (⟨-, hself⟩ | hs)
            · exfalso
              have : (resolveConditionList cl).all (fun i => (deref hp i).assert v) = true :=
                List.all_eq_true.mpr (fun i hi => hself i hi)
              rw [hall] at this
              cases this
            · exact hs
      · simp only [Bool.not_eq_true] at hp'
        subst hp'
        simp only [Bool.false_eq_true, if_false] at h
        rw [ih b h, sat_cons_iff]
        constructor
        · exact fun hs => Or.inr hs
        · rintro (⟨hpr, -⟩ | hs)
          · exfalso
            have := hpiff.mpr hpr
            cases this
          · exact hs

lemma assert_iff_sat :
    ∀ (f : Nat) (hp : Heap) (v : Value) (d : Descriptor) (b : Bool),
      RuntimeTypeCheck.assert f hp v d = some b → (b = true ↔ Sat hp v d) := by
  intro f
  induction f with
  | zero =>
    intro hp v d b h
    simp [RuntimeTypeCheck.assert] at h
  | succ f ih =>
    intro hp v d b h
    exact assertAlts_iff hp v (RuntimeTypeCheck.assert f hp v)
      (fun d' b' h' => ih hp v d' b' h') d b h

/-- Claim C1: for every value and descriptor, when `assert` returns, it
returns `true` iff some alternative holds fully (all prerequisites of
its conditions recursively satisfied by the same value, all own
predicates passing); a descriptor with zero alternatives never asserts
and an empty AND-group alternative vacuously asserts. -/
theorem assert_disjunction_thm (f : Nat) (hp : Heap) (v : Value) (d : Descriptor) (b : Bool)
    (h : RuntimeTypeCheck.assert f hp v d = some b) :
    (b = true ↔ Sat hp v d) ∧ ¬ Sat hp v ([] : Descriptor) ∧
      (Sum.inr [] ∈ d → Sat hp v d) ∧
      (∀ g : Nat, RuntimeTypeCheck.assert (g + 1) hp v ([] : Descriptor) = some false) :=
  ⟨assert_iff_sat f hp v d b h, sat_nil hp v, sat_of_empty_alt hp v d, fun _ => rfl⟩

/-- Witness for `assert_disjunction_thm` at the descriptor whose only
alternative is the empty AND-group. -/
theorem assert_disjunction_witness :
    (true = true ↔ Sat hpStd (Value.num 3) [Sum.inr []]) ∧
      ¬ Sat hpStd (Value.num 3) ([] : Descriptor) ∧
      (Sum.inr [] ∈ ([Sum.inr []] : Descriptor) → Sat hpStd (Value.num 3) [Sum.inr []]) ∧
      (∀ g : Nat, RuntimeTypeCheck.assert (g + 1) hpStd (Value.num 3) ([] : Descriptor) = some false) :=
  assert_disjunction_thm 2 hpStd (Value.num 3) [Sum.inr []] true rfl

lemma assertEvery_fst (hp : Heap) (v : Value) :
    ∀ conds log, (assertEvery hp v conds log).1 = conds.all (fun i => (deref hp i).assert v) := by
  intro conds
  induction conds with
  | nil => intro log; simp [assertEvery]
  | cons i rest ih =>
    intro log
    simp only [assertEvery, List.all_cons]
    rcases ha : (deref hp i).assert v
    · simp [ha]
    · simp [ha, ih]

lemma assertEvery_log (hp : Heap) (v : Value) :
    ∀ conds log i, i ∈ (assertEvery hp v conds log).2 → i ∈ log ∨ i ∈ conds := by
  intro conds
  induction conds with
  | nil =>
    intro log i hi
    simp only [assertEvery] at hi
    exact Or.inl hi
  | cons j rest ih =>
    intro log i hi
    simp only [assertEvery] at hi
    rcases ha : (deref hp j).assert v
    · rw [ha] at hi
      simp only [Bool.false_eq_true, if_false] at hi
      rcases List.mem_append.mp hi with hl | hl
      · exact Or.inl hl
      · simp at hl
        subst hl
        exact Or.inr (List.mem_cons_self _ _)
    · rw [ha] at hi
      simp only [if_true] at hi
      rcases ih (log ++ [j]) i hi with hl | hl
      · rcases List.mem_append.mp hl with hl2 | hl2
        · exact Or.inl hl2
        · simp at hl2
          subst hl2
          exact Or.inr (List.mem_cons_self _ _)
      · exact Or.inr (List.mem_cons_of_mem _ hl)

lemma instrPrereqs_fst (hp : Heap)
    (reci : Descriptor → List Nat → Option (Bool × List Nat))
    (recp : Descriptor → Option Bool)
    (hrec : ∀ d log, (reci d log).map Prod.fst = recp d) :
    ∀ conds log,
      (assertInstrPrereqs reci hp conds log).map Prod.fst = assertPrereqs recp hp conds := by
  intro conds
  induction conds with
  | nil => intro log; rfl
  | cons i rest ih =>
    intro log
    rcases hcond : (deref hp i).conditions with _ | P
    · simp only [assertInstrPrereqs, assertPrereqs, hcond]
      exact ih log
    · simp only [assertInstrPrereqs, assertPrereqs, hcond]
      rcases hri : reci P log with _ | rl
      · have : recp P = none := by rw [← hrec P log, hri]; rfl
        rw [this]
        simp [Option.bind_eq_bind, hri]
      · obtain ⟨r, log'⟩ := rl
        have : recp P = some r := by rw [← hrec P log, hri]; rfl
        rw [this]
        simp only [Option.bind_eq_bind, hri, Option.some_bind]
        rcases r
        · rfl
        · simp only [if_true]
          exact ih log'

lemma instrAlts_fst (hp : Heap) (v : Value)
    (reci : Descriptor → List Nat → Option (Bool × List Nat))
    (recp : Descriptor → Option Bool)
    (hrec : ∀ d log, (reci d log).map Prod.fst = recp d) :
    ∀ d log,
      (assertInstrAlts reci hp v d log).map Prod.fst = assertAlts recp hp v d := by
  intro d
  induction d with
  | nil => intro log; rfl
  | cons cl rest ih =>
    intro log
    simp only [assertInstrAlts, assertAlts]
    rcases hpre : assertInstrPrereqs reci hp (resolveConditionList cl) log with _ | pl
    · have : assertPrereqs recp hp (resolveConditionList cl) = none := by
        rw [← instrPrereqs_fst hp reci recp hrec _ log, hpre]; rfl
      rw [this]
      simp [Option.bind_eq_bind, hpre]
    · obtain ⟨pre, log'⟩ := pl
      have : assertPrereqs recp hp (resolveConditionList cl) = some pre := by
        rw [← instrPrereqs_fst hp reci recp hrec _ log, hpre]; rfl
      rw [this]
      simp only [Option.bind_eq_bind, hpre, Option.some_bind]
      rcases pre
      · simp only [Bool.false_eq_true, if_false]
        exact ih log'
      · simp only [if_true]
        rcases hev : assertEvery hp v (resolveConditionList cl) log' with ⟨r2, log2⟩
        have hr2 : r2 = (resolveConditionList cl).all (fun i => (deref hp i).assert v) := by
          rw [← assertEvery_fst hp v _ log', hev]
        rcases r2
        · rw [← hr2]
          simp only [Bool.false_eq_true, if_false]
          exact ih log2
        · rw [← hr2]
          simp only [if_true]
          rfl

lemma assertInstr_fst :
    ∀ (f : Nat) (hp : Heap) (v : Value) (d : Descriptor) (log : List Nat),
      (assertInstr f hp v d log).map Prod.fst = RuntimeTypeCheck.assert f hp v d := by
  intro f
  induction f with
  | zero => intro hp v d log; rfl
  | succ f ih =>
    intro hp v d log
    exact instrAlts_fst hp v (assertInstr f hp v) (RuntimeTypeCheck.assert f hp v)
      (fun d' log' => ih hp v d' log') d log

lemma instrPrereqs_true_sat (hp : Heap) (v : Value)
    (reci : Descriptor → List Nat → Option (Bool × List Nat))
    (hrecTrue : ∀ d log log', reci d log = some (true, log') → Sat hp v d) :
    ∀ conds log log',
      assertInstrPrereqs reci hp conds log = some (true, log') → PrereqsOk hp v conds := by
  intro conds
  induction conds with
  | nil =>
    intro log log' _
    exact prereqsOk_nil hp v
  | cons i rest ih =>
    intro log log' h
    rcases hcond : (deref hp i).conditions with _ | P
    · simp only [assertInstrPrereqs, hcond] at h
      rw [prereqsOk_cons]
      refine ⟨?_, ih log log' h⟩
      intro P hP
      rw [hcond] at hP
      cases hP
    · simp only [assertInstrPrereqs, hcond] at h
      rcases hri : reci P log with _ | rl
      · rw [hri] at h
        simp at h
      · obtain ⟨r, log1⟩ := rl
        rw [hri] at h
        simp only [Option.bind_eq_bind, Option.some_bind] at h
        rcases r
        · simp only [Bool.false_eq_true, if_false, pure, Option.some.injEq, Prod.mk.injEq] at h
          exact h.1.elim
        · simp only [if_true] at h
          rw [prereqsOk_cons]
          refine ⟨?_, ih log1 log' h⟩
          intro P' hP'
          rw [hcond] at hP'
          cases hP'
          exact hrecTrue P log log1 hri

lemma instrPrereqs_log (hp : Heap) (v : Value)
    (reci : Descriptor → List Nat → Option (Bool × List Nat))
    (hrecLog : ∀ d log r log', reci d log = some (r, log') →
      ∀ i ∈ log', i ∈ log ∨ ∀ P, (deref hp i).conditions = some P → Sat hp v P) :
    ∀ conds log r log', assertInstrPrereqs reci hp conds log = some (r, log') →
      ∀ i ∈ log', i ∈ log ∨ ∀ P, (deref hp i).conditions = some P → Sat hp v P := by
  intro conds
  induction conds with
  | nil =>
    intro log r log' h i hi
    simp only [assertInstrPrereqs, Option.some.injEq] at h
    cases h
    exact Or.inl hi
  | cons j rest ih =>
    intro log r log' h i hi
    rcases hcond : (deref hp j).conditions with _ | P
    · simp only [assertInstrPrereqs, hcond] at h
      exact ih log r log' h i hi
    · simp only [assertInstrPrereqs, hcond] at h
      rcases hri : reci P log with _ | rl
      · rw [hri] at h
        simp at h
      · obtain ⟨r0, log1⟩ := rl
        rw [hri] at h
        simp only [Option.bind_eq_bind, Option.some_bind] at h
        have hlog1 : ∀ k ∈ log1, k ∈ log ∨ ∀ P', (deref hp k).conditions = some P' → Sat hp v P' :=
          fun k hk => hrecLog P log r0 log1 hri k hk
        rcases r0
        · simp only [Bool.false_eq_true, if_false, pure, Option.some.injEq, Prod.mk.injEq] at h
          rw [← h.2] at hi
          exact hlog1 i hi
        · simp only [if_true] at h
          rcases ih log1 r log' h i hi with hl | hg
          · exact hlog1 i hl
          · exact Or.inr hg

lemma instrAlts_log (hp : Heap) (v : Value)
    (reci : Descriptor → List Nat → Option (Bool × List Nat))
    (hrecLog : ∀ d log r log', reci d log = some (r, log') →
      ∀ i ∈ log', i ∈ log ∨ ∀ P, (deref hp i).conditions = some P → Sat hp v P)
    (hrecTrue : ∀ d log log', reci d log = some (true, log') → Sat hp v d) :
    ∀ d log r log', assertInstrAlts reci hp v d log = some (r, log') →
      ∀ i ∈ log', i ∈ log ∨ ∀ P, (deref hp i).conditions = some P → Sat hp v P := by
  intro d
  induction d with
  | nil =>
    intro log r log' h i hi
    simp only [assertInstrAlts, Option.some.injEq] at h
    cases h
    exact Or.inl hi
  | cons cl rest ih =>
    intro log r log' h i hi
    simp only [assertInstrAlts] at h
    rcases hpre : assertInstrPrereqs reci hp (resolveConditionList cl) log with _ | pl
    · rw [hpre] at h
      simp at h
    · obtain ⟨pre, log1⟩ := pl
      rw [hpre] at h
      simp only [Option.bind_eq_bind, Option.some_bind] at h
      have hlog1 : ∀ k ∈ log1, k ∈ log ∨ ∀ P', (deref hp k).conditions = some P' → Sat hp v P' :=
        fun k hk => instrPrereqs_log hp v reci hrecLog _ log pre log1 hpre k hk
      rcases pre
      · simp only [Bool.false_eq_true, if_false] at h
        rcases ih log1 r log' h i hi with hl | hg
        · exact hlog1 i hl
        · exact Or.inr hg
      · simp only [if_true] at h
        have hsat : PrereqsOk hp v (resolveConditionList cl) :=
          instrPrereqs_true_sat hp v reci hrecTrue _ log log1 hpre
        rcases hev : assertEvery hp v (resolveConditionList cl) log1 with ⟨r2, log2⟩
        rw [hev] at h
        have hlog2 : ∀ k ∈ log2, k ∈ log ∨ ∀ P', (deref hp k).conditions = some P' → Sat hp v P' := by
          intro k hk
          have := assertEvery_log hp v (resolveConditionList cl) log1 k
          rw [hev] at this
          rcases this hk with hl | hc
          · exact hlog1 k hl
          · exact Or.inr (fun P' hP' => hsat k hc P' hP')
        rcases r2
        · rcases ih log2 r log' h i hi with hl | hg
          · exact hlog2 i hl
          · exact Or.inr hg
        · simp only [pure, Option.some.injEq, Prod.mk.injEq] at h
          rw [← h.2] at hi
          exact hlog2 i hi

lemma assertInstr_log :
    ∀ (f : Nat) (hp : Heap) (v : Value) (d : Descriptor) (log : List Nat) (r : Bool) (log' : List Nat),
      assertInstr f hp v d log = some (r, log') →
      ∀ i ∈ log', i ∈ log ∨ ∀ P, (deref hp i).conditions = some P → Sat hp v P := by
  intro f
  induction f with
  | zero =>
    intro hp v d log r log' h
    simp [assertInstr] at h
  | succ f ih =>
    intro hp v d log r log' h
    refine instrAlts_log hp v (assertInstr f hp v)
      (fun d' log0 r0 log0' h0 => ih hp v d' log0 r0 log0' h0) ?_ d log r log' h
    intro d' log0 log0' h0
    have hfst := assertInstr_fst f hp v d' log0
    rw [h0] at hfst
    exact (assert_iff_sat f hp v d' true hfst.symm).mp rfl

/-- Claim C4, amended: in the assertion evaluator, a condition whose
prerequisite descriptor fails on the value never has its own assert
predicate invoked — every index newly appearing in the invocation log
of the instrumented evaluator has all its present prerequisite
descriptors satisfied; and the instrumented evaluator computes exactly
`RuntimeTypeCheck.assert`.  (The relevance resolver does not share
this guarantee; see the counterexample.) -/
theorem short_circuit_amended_thm (f : Nat) (hp : Heap) (v : Value) (d : Descriptor)
    (log : List Nat) (r : Bool) (log' : List Nat)
    (h : assertInstr f hp v d log = some (r, log')) :
    ((assertInstr f hp v d log).map Prod.fst = RuntimeTypeCheck.assert f hp v d) ∧
      ∀ i ∈ log', i ∈ log ∨ ∀ P, (deref hp i).conditions = some P → Sat hp v P :=
  ⟨assertInstr_fst f hp v d log, assertInstr_log f hp v d log r log' h⟩

/-- Witness for `short_circuit_amended_thm`: the README inputs
(value `-3` against `string OR [positive, integer]`). -/
theorem short_circuit_amended_witness :
    ((assertInstr 5 hpStd (Value.num (-3)) descStd []).map Prod.fst =
        RuntimeTypeCheck.assert 5 hpStd (Value.num (-3)) descStd) ∧
      ∀ i ∈ [1, 0, 0, 2], i ∈ ([] : List Nat) ∨
        ∀ P, (deref hpStd i).conditions = some P → Sat hpStd (Value.num (-3)) P :=
  short_circuit_amended_thm 5 hpStd (Value.num (-3)) descStd [] false [1, 0, 0, 2] rfl

/-- Claim C4, counterexample: in `#getMostRelevantFailingCondition` over the
single alternative `[P, X]` with `X` depending on the failing `P`, the
instrumented resolver invokes `X`'s own predicate (index 1 is in the
invocation log) although `X`'s prerequisite descriptor `[P]` fails on
the value — `P` was already visited, so the recursive resolution of
`[P]` reports no failure and the code proceeds to `X.assert`. -/
theorem short_circuit_cex :
    relevantInstrAux 10 hpShort Value.null descShort [] [] =
        some (⟨some 10, some 0⟩, [0, 1], [0, 1]) ∧
      (1 : Nat) ∈ [0, 1] ∧
      (deref hpShort 1).conditions = some [Sum.inl 0] ∧
      RuntimeTypeCheck.assert 10 hpShort Value.null [Sum.inl 0] = some false ∧
      ¬ Sat hpShort Value.null [Sum.inl 0] := by
  refine ⟨by decide, by decide, by decide, by decide, ?_⟩
  intro hs
  have := (assert_iff_sat 10 hpShort Value.null [Sum.inl 0] false rfl).mpr hs
  cases this

lemma specConds_byChild_eq (hp : Heap) (v : Value) (sat : Descriptor → Bool)
    (rec1 rec2 : Descriptor → List Nat → Option (FailingData × List Nat))
    (hrec : ∀ P ig, rec1 P ig = rec2 P ig) :
    ∀ conds ig ff mc lc,
      relevantSpecConds .byChildFailure sat rec1 hp v conds ig ff mc lc =
        relevantConds rec2 hp v conds ig ff mc lc := by
  intro conds
  induction conds with
  | nil => intro ig ff mc lc; rfl
  | cons i rest ih =>
    intro ig ff mc lc
    by_cases hmem : i ∈ ig
    · simp only [relevantSpecConds, relevantConds, if_pos hmem]
      exact ih ig ff mc lc
    · simp only [relevantSpecConds, relevantConds, if_neg hmem]
      rcases hcond : (deref hp i).conditions with _ | P
      · simp only [hcond]
        rcases ha : (deref hp i).assert v
        · simp only [ha, Option.isNone_none, Bool.true_and, Bool.false_eq_true, if_false]
          exact ih _ _ _ _
        · simp only [ha, Option.isNone_none, Bool.true_and, if_true]
          exact ih _ _ _ _
      · simp only [hcond]
        by_cases hlen : 0 < P.length
        · simp only [if_pos hlen, hrec P (ig ++ [i])]
          rcases hr2 : rec2 P (ig ++ [i]) with _ | r
          · rfl
          · obtain ⟨fd, ig2⟩ := r
            simp only [Option.map_some']
            rcases hfail : fd.failing with _ | j
            · simp only [hfail, Option.isNone_none, Bool.true_and]
              rcases ha : (deref hp i).assert v
              · simp only [ha, Bool.false_eq_true, if_false]
                exact ih _ _ _ _
              · simp only [ha, if_true]
                exact ih _ _ _ _
            · simp only [hfail, Option.isNone_some, Bool.false_and, Bool.false_eq_true, if_false]
              exact ih _ _ _ _
        · simp only [if_neg hlen]
          rcases ha : (deref hp i).assert v
          · simp only [ha, Option.isNone_none, Bool.true_and, Bool.false_eq_true, if_false]
            exact ih _ _ _ _
          · simp only [ha, Option.isNone_none, Bool.true_and, if_true]
            exact ih _ _ _ _

lemma specAlts_byChild_eq (hp : Heap) (v : Value) (sat : Descriptor → Bool)
    (rec1 rec2 : Descriptor → List Nat → Option (FailingData × List Nat))
    (hrec : ∀ P ig, rec1 P ig = rec2 P ig) :
    ∀ d mx ig,
      relevantSpecAlts .byChildFailure sat rec1 hp v d mx ig =
        relevantAlts rec2 hp v d mx ig := by
  intro d
  induction d with
  | nil => intro mx ig; rfl
  | cons cl rest ih =>
    intro mx ig
    simp only [relevantSpecAlts, relevantAlts,
      specConds_byChild_eq hp v sat rec1 rec2 hrec (resolveConditionList cl) ig none none 0]
    rcases relevantConds rec2 hp v (resolveConditionList cl) ig none none 0 with _ | st
    · rfl
    · obtain ⟨ff, mc, lc, ig'⟩ := st
      simp only [Option.bind_eq_bind, Option.some_bind]
      exact ih _ _

lemma specAux_byChild_eq :
    ∀ (f : Nat) (hp : Heap) (v : Value) (d : Descriptor) (ig : List Nat),
      relevantSpecAux .byChildFailure f hp v d ig = relevantAux f hp v d ig := by
  intro f
  induction f with
  | zero => intro hp v d ig; rfl
  | succ f ih =>
    intro hp v d ig
    exact specAlts_byChild_eq hp v _ (relevantSpecAux .byChildFailure f hp v)
      (relevantAux f hp v) (fun P ig' => ih hp v P ig') d ⟨none, none⟩ ig

/-- Claim C2, amended: the relevance resolver behaves exactly as the claim
describes once the `+10` bonus (and the absence of a per-condition
failure) is gated by "the recursive resolution of the prerequisites
reports no failing condition" instead of "the prerequisites are
satisfied or absent": the source resolver coincides with the
claim-shaped resolver under the `byChildFailure` gate, at every fuel,
heap, value, descriptor and visited list. -/
theorem relevance_amended_thm (f : Nat) (hp : Heap) (v : Value) (d : Descriptor) :
    (∀ ig, relevantSpecAux .byChildFailure f hp v d ig = relevantAux f hp v d ig) ∧
      relevantFailingSpec .byChildFailure f hp v d =
        RuntimeTypeCheck.getMostRelevantFailingCondition f hp v d := by
  refine ⟨fun ig => specAux_byChild_eq f hp v d ig, ?_⟩
  unfold relevantFailingSpec RuntimeTypeCheck.getMostRelevantFailingCondition
  rw [specAux_byChild_eq f hp v d []]

/-- Claim C2, counterexample: with alternatives `[X]` and `[P1, P2, G]` over
`hpScore` (where `X`'s prerequisite descriptor `[[A], [B, C, D]]` is
satisfied via `A` yet its recursive resolution reports the failing
`D`), the source resolver returns `G` (index 7) while the resolver
gated by prerequisite *satisfaction* — the claim's wording — returns
`D` (index 3): the claim's `+10` rule awards `X` a bonus the code does
not award. -/
theorem relevance_claim_cex :
    RuntimeTypeCheck.getMostRelevantFailingCondition 10 hpScore Value.null descScore =
        some (some 7) ∧
      relevantFailingSpec .bySatisfaction 10 hpScore Value.null descScore = some (some 3) ∧
      RuntimeTypeCheck.getMostRelevantFailingCondition 10 hpScore Value.null descScore ≠
        relevantFailingSpec .bySatisfaction 10 hpScore Value.null descScore := by
  refine ⟨by decide, by decide, by decide⟩

/-- Claim C3, evaluated at the failing input: for the value `-3` against
`(Cond.string, [Cond.positive, Cond.integer])`, `assert` returns
`false` and `assertAndThrow` throws with `is` equal to
"a negative number or 0" — but the `expected` string the code produces
is "string OR positive integer" (the alternatives are rendered in
descriptor order), not the "positive integer OR string" documented in
the repository's README and pinned by the claim. -/
theorem readme_example_thm :
    RuntimeTypeCheck.assert 10 hpStd (Value.num (-3)) descStd = some false ∧
      RuntimeTypeCheck.assertAndThrow 10 hpStd (Value.num (-3)) descStd =
        some (Except.error ⟨"string OR positive integer", "a negative number or 0"⟩) ∧
      RuntimeTypeCheck.getMessageExpected 10 hpStd descStd = some "string OR positive integer" ∧
      RuntimeTypeCheck.getMessageIs 10 hpStd (Value.num (-3)) descStd =
        some "a negative number or 0" ∧
      "string OR positive integer" ≠ "positive integer OR string" :=
  ⟨by decide, by rfl, by decide, by decide, by decide⟩

/-- Claim C9: whenever `assertAndThrow` returns, it throws a diagnostic
error iff `assert` is `false` (returning `true` otherwise), and the
error's `expected`/`is` fields are exactly `getMessageExpected` of the
whole descriptor and `getMessageIs` of the value, with the combined
message exactly `"Expected " ++ expected ++ ", got " ++ is` (no
trailing period). -/
theorem assert_and_throw_thm (f : Nat) (hp : Heap) (v : Value) (d : Descriptor)
    (r : Except TypeCheckError Bool)
    (h : RuntimeTypeCheck.assertAndThrow f hp v d = some r) :
    ((∃ e, r = Except.error e) ↔ RuntimeTypeCheck.assert f hp v d = some false) ∧
      ((¬ ∃ e, r = Except.error e) → r = Except.ok true) ∧
      (∀ e, r = Except.error e →
        RuntimeTypeCheck.getMessageExpected f hp d = some e.expected ∧
        RuntimeTypeCheck.getMessageIs f hp v d = some e.is ∧
        e.message = "Expected " ++ e.expected ++ ", got " ++ e.is) := by
  simp only [RuntimeTypeCheck.assertAndThrow] at h
  rcases hb : RuntimeTypeCheck.assert f hp v d with _ | b
  · rw [hb] at h
    simp at h
  · rw [hb] at h
    simp only [Option.bind_eq_bind, Option.some_bind] at h
    rcases b
    · simp only [Bool.not_false, if_true] at h
      rcases hexp : RuntimeTypeCheck.getMessageExpected f hp d with _ | exp
      · rw [hexp] at h
        simp at h
      · rw [hexp] at h
        simp only [Option.bind_eq_bind, Option.some_bind] at h
        rcases hisv : RuntimeTypeCheck.getMessageIs f hp v d with _ | isv
        · rw [hisv] at h
          simp at h
        · rw [hisv] at h
          simp only [Option.bind_eq_bind, Option.some_bind, pure, Option.some.injEq] at h
          subst h
          refine ⟨?_, ?_, ?_⟩
          · simp only [iff_true_intro rfl, iff_true]
            exact ⟨⟨exp, isv⟩, rfl⟩
          · intro hne
            exact absurd ⟨⟨exp, isv⟩, rfl⟩ hne
          · rintro e he
            injection he with he
            subst he
            exact ⟨by simp [hexp], by simp [hisv], rfl⟩
    · simp only [Bool.not_true, Bool.false_eq_true, if_false, pure, Option.some.injEq] at h
      subst h
      refine ⟨?_, fun _ => rfl, ?_⟩
      · constructor
        · rintro ⟨e, he⟩
          cases he
        · intro hfalse
          simp_all
      · rintro e he
        cases he

/-- Witness for `assert_and_throw_thm` at the README inputs. -/
theorem assert_and_throw_witness :
    ((∃ e, (Except.error (⟨"string OR positive integer", "a negative number or 0"⟩ :
            TypeCheckError) : Except TypeCheckError Bool) = Except.error e) ↔
        RuntimeTypeCheck.assert 10 hpStd (Value.num (-3)) descStd = some false) ∧
      ((¬ ∃ e, (Except.error (⟨"string OR positive integer", "a negative number or 0"⟩ :
            TypeCheckError) : Except TypeCheckError Bool) = Except.error e) →
        (Except.error (⟨"string OR positive integer", "a negative number or 0"⟩ :
            TypeCheckError) : Except TypeCheckError Bool) = Except.ok true) ∧
      (∀ e, (Except.error (⟨"string OR positive integer", "a negative number or 0"⟩ :
            TypeCheckError) : Except TypeCheckError Bool) = Except.error e →
        RuntimeTypeCheck.getMessageExpected 10 hpStd descStd = some e.expected ∧
        RuntimeTypeCheck.getMessageIs 10 hpStd (Value.num (-3)) descStd = some e.is ∧
        e.message = "Expected " ++ e.expected ++ ", got " ++ e.is) :=
  assert_and_throw_thm 10 hpStd (Value.num (-3)) descStd
    (Except.error ⟨"string OR positive integer", "a negative number or 0"⟩) rfl

/-- Claim C10: the method assertAndThrow on an empty descriptor (zero alternatives)
always throws, with both derived strings empty, so the combined
message is exactly "Expected , got ". -/
theorem empty_descriptor_throw_thm (f : Nat) (hp : Heap) (v : Value) :
    RuntimeTypeCheck.assertAndThrow (f + 1) hp v [] = some (Except.error ⟨"", ""⟩) ∧
      RuntimeTypeCheck.getMessageExpected (f + 1) hp [] = some "" ∧
      RuntimeTypeCheck.getMessageIs (f + 1) hp v [] = some "" ∧
      TypeCheckError.message ⟨"", ""⟩ = "Expected , got " :=
  ⟨rfl, rfl, rfl, rfl⟩

lemma msgEq_iff (a b : MessagePartial) : msgEq a b = true ↔ a = b := by
  unfold msgEq
  simp only [Bool.and_eq_true, beq_iff_eq]
  constructor
  · rintro ⟨⟨h1, h2⟩, h3⟩
    cases a
    cases b
    simp_all
  · rintro rfl
    simp

lemma filterDup_eq_dedup : ∀ l : List MessagePartial, filterDup l = l.dedup := by
  intro l
  induction l with
  | nil => rfl
  | cons x rest ih =>
    by_cases hx : x ∈ rest
    · have hany : rest.any (fun y => msgEq x y) = true :=
        List.any_eq_true.mpr ⟨x, hx, (msgEq_iff x x).mpr rfl⟩
      simp only [filterDup, hany, if_true, ih]
      exact (List.dedup_cons_of_mem hx).symm
    · have hany : rest.any (fun y => msgEq x y) = false := by
        rw [Bool.eq_false_iff]
        intro hc
        obtain ⟨y, hy, heq⟩ := List.any_eq_true.mp hc
        rw [(msgEq_iff x y).mp heq] at hx
        exact hx hy
      simp only [filterDup, hany, Bool.false_eq_true, if_false, ih]
      exact (List.dedup_cons_of_not_mem hx).symm

lemma filterDup_cons_of_mem (x : MessagePartial) (l : List MessagePartial) (h : x ∈ l) :
    filterDup (x :: l) = filterDup l := by
  have hany : l.any (fun y => msgEq x y) = true :=
    List.any_eq_true.mpr ⟨x, h, (msgEq_iff x x).mpr rfl⟩
  simp only [filterDup, hany, if_true]

/-- Claim C6, amended: the final filter of `#mergeDescriptorMessagesHelper`
deduplicates by structural equality but keeps the *last* occurrence of
each duplicate group (it coincides with `List.dedup`, and a head with
a structurally equal later element is dropped); a descriptor containing
the identical alternative twice still produces exactly one fragment,
and on the alternatives `(x, y, x)` the surviving `x`-fragment sits
after the `y`-fragment. -/
theorem dedup_amended_thm :
    (∀ l : List MessagePartial, filterDup l = l.dedup) ∧
      (∀ (x : MessagePartial) (l : List MessagePartial), x ∈ l →
        filterDup (x :: l) = filterDup l) ∧
      RuntimeTypeCheck.mergeDescriptorMessages 3 hpDup descTwiceSame =
        some [⟨[], some "x", []⟩] ∧
      RuntimeTypeCheck.mergeDescriptorMessages 3 hpDup descDup =
        some [⟨[], some "y", []⟩, ⟨[], some "x", []⟩] :=
  ⟨filterDup_eq_dedup, filterDup_cons_of_mem, by decide, by decide⟩

/-- Witness for `dedup_amended_thm`: a duplicated head fragment is
dropped in favour of its later occurrence. -/
theorem dedup_amended_witness :
    filterDup [(⟨[], some "x", []⟩ : MessagePartial), ⟨[], some "x", []⟩] =
      filterDup [(⟨[], some "x", []⟩ : MessagePartial)] :=
  dedup_amended_thm.2.1 ⟨[], some "x", []⟩ [⟨[], some "x", []⟩] (by decide)

/-- Claim C6, counterexample: on the alternatives `(x, y, x)` the source keeps
the *last* `x`-fragment (output `[y, x]`) while the claim's
first-occurrence deduplication would produce `[x, y]`. -/
theorem dedup_claim_cex :
    RuntimeTypeCheck.mergeDescriptorMessages 3 hpDup descDup =
        some [⟨[], some "y", []⟩, ⟨[], some "x", []⟩] ∧
      mergeSpecFirstAux 3 hpDup (some descDup) =
        some [⟨[], some "x", []⟩, ⟨[], some "y", []⟩] ∧
      RuntimeTypeCheck.mergeDescriptorMessages 3 hpDup descDup ≠
        mergeSpecFirstAux 3 hpDup (some descDup) :=
  ⟨by decide, by decide, by decide⟩

lemma mergeThat_perm : ∀ l r : List String, (mergeThat l r).Perm (l ++ r) := by
  intro l
  induction l with
  | nil => intro r; simp [mergeThat]
  | cons a l ih =>
    intro r
    simp only [mergeThat]
    rcases jsStartsWith a "that"
    · simp only [Bool.false_eq_true, if_false, List.cons_append]
      exact (ih r).cons a
    · simp only [if_true]
      exact List.perm_append_comm

lemma sortThatAux_perm : ∀ (f : Nat) (l : List String), (sortThatAux f l).Perm l := by
  intro f
  induction f with
  | zero =>
    intro l
    rcases l with _ | ⟨a, _ | ⟨b, t⟩⟩ <;> simp [sortThatAux]
  | succ f ih =>
    intro l
    rcases l with _ | ⟨a, _ | ⟨b, t⟩⟩
    · simp [sortThatAux]
    · simp [sortThatAux]
    · show (mergeThat (sortThatAux f ((a :: b :: t).take ((a :: b :: t).length / 2)))
        (sortThatAux f ((a :: b :: t).drop ((a :: b :: t).length / 2)))).Perm (a :: b :: t)
      refine (mergeThat_perm _ _).trans ?_
      refine ((ih _).append (ih _)).trans ?_
      rw [List.take_append_drop]

lemma thatSplit_nil : ThatSplit [] :=
  ⟨[], [], rfl, by simp, by simp⟩

lemma thatSplit_single (a : String) : ThatSplit [a] := by
  rcases h : jsStartsWith a "that"
  · exact ⟨[a], [], rfl, by simpa using h, by simp⟩
  · exact ⟨[], [a], rfl, by simp, by simpa using h⟩

lemma mergeThat_split : ∀ a b : List String, ThatSplit a → ThatSplit b →
    ThatSplit (mergeThat a b) := by
  intro a
  induction a with
  | nil =>
    intro b _ hb
    simpa [mergeThat] using hb
  | cons x a ih =>
    intro b ha hb
    simp only [mergeThat]
    rcases hx : jsStartsWith x "that"
    · simp only [Bool.false_eq_true, if_false]
      obtain ⟨u, w, heq, hu, hw⟩ := ha
      rcases u with _ | ⟨u0, u'⟩
      · exfalso
        simp only [List.nil_append] at heq
        have hxw : x ∈ w := by rw [← heq]; exact List.mem_cons_self _ _
        rw [hw x hxw] at hx
        cases hx
      · simp only [List.cons_append, List.cons.injEq] at heq
        obtain ⟨hx0, heq'⟩ := heq
        subst hx0
        have ha' : ThatSplit a := ⟨u', w, heq', fun s hs => hu s (List.mem_cons_of_mem _ hs), hw⟩
        obtain ⟨u2, w2, heq2, hu2, hw2⟩ := ih b ha' hb
        refine ⟨x :: u2, w2, by simp [heq2], ?_, hw2⟩
        intro s hs
        rcases List.mem_cons.mp hs with rfl | hs
        · exact hx
        · exact hu2 s hs
    · simp only [if_true]
      obtain ⟨u, w, heq, hu, hw⟩ := ha
      have hall : ∀ s ∈ x :: a, jsStartsWith s "that" = true := by
        rcases u with _ | ⟨u0, u'⟩
        · simp only [List.nil_append] at heq
          rw [heq]
          exact hw
        · exfalso
          simp only [List.cons_append, List.cons.injEq] at heq
          have := hu u0 (List.mem_cons_self _ _)
          rw [← heq.1] at this
          rw [this] at hx
          cases hx
      obtain ⟨ub, wb, heqb, hub, hwb⟩ := hb
      refine ⟨ub, wb ++ (x :: a), by simp [heqb], hub, ?_⟩
      intro s hs
      rcases List.mem_append.mp hs with hs | hs
      · exact hwb s hs
      · exact hall s hs

lemma sortThatAux_split : ∀ (f : Nat) (l : List String), l.length ≤ f →
    ThatSplit (sortThatAux f l) := by
  intro f
  induction f with
  | zero =>
    intro l hl
    have : l = [] := List.length_eq_zero.mp (Nat.le_zero.mp hl)
    subst this
    exact thatSplit_nil
  | succ f ih =>
    intro l hl
    rcases l with _ | ⟨a, _ | ⟨b, t⟩⟩
    · exact thatSplit_nil
    · exact thatSplit_single a
    · show ThatSplit (mergeThat (sortThatAux f ((a :: b :: t).take ((a :: b :: t).length / 2)))
        (sortThatAux f ((a :: b :: t).drop ((a :: b :: t).length / 2))))
      have hn : (a :: b :: t).length = t.length + 2 := by simp
      refine mergeThat_split _ _ (ih _ ?_) (ih _ ?_)
      · rw [List.length_take, hn]
        simp only [List.length_cons] at hl
        omega
      · rw [List.length_drop, hn]
        simp only [List.length_cons] at hl
        omega

lemma sortThat_perm (l : List String) : (sortThat l).Perm l :=
  sortThatAux_perm l.length l

lemma sortThat_split (l : List String) : ThatSplit (sortThat l) :=
  sortThatAux_split l.length l le_rfl

lemma andRewrite_not_that (t : List Char) :
    jsStartsWith (String.mk ('a' :: 'n' :: 'd' :: t)) "that" = false := rfl

lemma andRewriteGo_true_countP : ∀ l : List String,
    List.countP (fun s => jsStartsWith s "that") (andRewriteGo true l) = 0 := by
  intro l
  induction l with
  | nil => rfl
  | cons s rest ih =>
    rcases hs : jsStartsWith s "that"
    · simp [andRewriteGo, hs, List.countP_cons, ih]
    · simp [andRewriteGo, hs, List.countP_cons, ih, andRewrite_not_that]

lemma andRewriteGo_false_countP : ∀ l : List String,
    List.countP (fun s => jsStartsWith s "that") (andRewriteGo false l) ≤ 1 := by
  intro l
  induction l with
  | nil => simp [andRewriteGo]
  | cons s rest ih =>
    rcases hs : jsStartsWith s "that"
    · simpa [andRewriteGo, hs, List.countP_cons] using ih
    · simp [andRewriteGo, hs, List.countP_cons, andRewriteGo_true_countP rest]

/-- Claim C5, amended: the method compilePartialMessage renders the trimmed `before`
items joined by ", " plus a space, then the type (placeholder
`<unknown>` when absent), then the `after` items reordered by the
engine's sort so that every non-"that" item precedes every
"that"-prefixed item (a permutation of the input), with every
"that"-prefixed item after the first rewritten to start with "and";
under the sort semantics pinned by the repository's own tests the
claim's example renders with the two "that" items in reversed order:
"positive integer that is greater than 25 and is divisible by 5". -/
theorem render_amended_thm :
    RuntimeTypeCheck.compilePartialMessage exFragment =
        "positive integer that is greater than 25 and is divisible by 5" ∧
      (∀ l : List String, (sortThat l).Perm l ∧ ThatSplit (sortThat l)) ∧
      (∀ l : List String,
        List.countP (fun s => jsStartsWith s "that") (andRewriteGo false l) ≤ 1) :=
  ⟨by decide, fun l => ⟨sortThat_perm l, sortThat_split l⟩, andRewriteGo_false_countP⟩

/-- Claim C5, counterexample: the claim's example fragment does not render to
the claim's string — the engine sort behind
`.sort(str => str.startsWith('that') ? 1 : -1)` (as pinned by the
repository's test expectations) reverses the two "that" items. -/
theorem render_claim_cex :
    RuntimeTypeCheck.compilePartialMessage exFragment ≠
        "positive integer that is divisible by 5 and is greater than 25" ∧
      RuntimeTypeCheck.compilePartialMessage exFragment =
        "positive integer that is greater than 25 and is divisible by 5" :=
  ⟨by decide, by decide⟩

lemma passCountConds_spec (hp : Heap) (v : Value)
    (rec : Descriptor → List Nat → Option (Int × List Nat))
    (hrec : ∀ P ig k ig2, rec P ig = some (k, ig2) →
      ∃ e : List Nat, ig2 = ig ++ e ∧ e.Nodup ∧ (∀ j ∈ e, j ∉ ig) ∧
        k = ((e.filter (fun i => (deref hp i).assert v)).length : Int)) :
    ∀ conds cnt ig k ig2, passCountConds rec hp v conds cnt ig = some (k, ig2) →
      ∃ e : List Nat, ig2 = ig ++ e ∧ e.Nodup ∧ (∀ j ∈ e, j ∉ ig) ∧
        k = cnt + ((e.filter (fun i => (deref hp i).assert v)).length : Int) := by
  intro conds
  induction conds with
  | nil =>
    intro cnt ig k ig2 h
    simp only [passCountConds, Option.some.injEq, Prod.mk.injEq] at h
    exact ⟨[], by simp [h.2.symm], List.nodup_nil, by simp, by simp [h.1.symm]⟩
  | cons i rest ih =>
    intro cnt ig k ig2 h
    by_cases hmem : i ∈ ig
    · simp only [passCountConds, if_pos hmem] at h
      exact ih cnt ig k ig2 h
    · rcases hcond : (deref hp i).conditions with _ | P
      · simp only [passCountConds, if_neg hmem, hcond] at h
        obtain ⟨e2, he2, hnd2, hfr2, hk⟩ := ih _ _ _ _ h
        refine ⟨i :: e2, ?_, ?_, ?_, ?_⟩
        · rw [he2]
          simp
        · refine List.nodup_cons.mpr ⟨?_, hnd2⟩
          intro hie
          exact hfr2 i hie (List.mem_append.mpr (Or.inr (by simp)))
        · intro j hj
          rcases List.mem_cons.mp hj with rfl | hj
          · exact hmem
          · intro hjig
            exact hfr2 j hj (List.mem_append.mpr (Or.inl hjig))
        · rw [hk]
          rcases ha : (deref hp i).assert v
          · simp [List.filter_cons, ha]
          · simp only [List.filter_cons, ha, if_true, List.length_cons]
            push_cast
            ring
      · simp only [passCountConds, if_neg hmem, hcond] at h
        rcases hri : rec P (ig ++ [i]) with _ | r1
        · simp [hri] at h
        · obtain ⟨k1, igA⟩ := r1
          simp only [hri, Option.map_some'] at h
          obtain ⟨e1, he1, hnd1, hfr1, hk1⟩ := hrec P (ig ++ [i]) k1 igA hri
          obtain ⟨e2, he2, hnd2, hfr2, hk2⟩ := ih _ _ _ _ h
          refine ⟨i :: (e1 ++ e2), ?_, ?_, ?_, ?_⟩
          · rw [he2, he1]
            simp
          · refine List.nodup_cons.mpr ⟨?_, ?_⟩
            · intro hie
              rcases List.mem_append.mp hie with h1 | h2
              · exact hfr1 i h1 (by simp)
              · have := hfr2 i h2
                rw [he1] at this
                exact this (by simp)
            · refine List.nodup_append.mpr ⟨hnd1, hnd2, ?_⟩
              intro a ha1 ha2
              have := hfr2 a ha2
              rw [he1] at this
              exact this (List.mem_append.mpr (Or.inr ha1))
          · intro j hj
            rcases List.mem_cons.mp hj with rfl | hj
            · exact hmem
            · rcases List.mem_append.mp hj with h1 | h2
              · intro hjig
                exact hfr1 j h1 (List.mem_append.mpr (Or.inl hjig))
              · intro hjig
                have := hfr2 j h2
                rw [he1] at this
                exact this (List.mem_append.mpr (Or.inl (List.mem_append.mpr (Or.inl hjig))))
          · rw [hk2, hk1]
            have hfl : ((i :: (e1 ++ e2)).filter (fun j => (deref hp j).assert v)).length =
                (if (deref hp i).assert v then 1 else 0) +
                  ((e1.filter (fun j => (deref hp j).assert v)).length +
                    (e2.filter (fun j => (deref hp j).assert v)).length) := by
              rcases ha : (deref hp i).assert v
              · simp [List.filter_cons, ha, List.filter_append]
              · simp only [List.filter_cons, ha, if_true, List.length_cons,
                  List.filter_append, List.length_append]
                omega
            rw [hfl]
            rcases ha : (deref hp i).assert v
            · simp only [Bool.false_eq_true, if_false]
              push_cast
              ring
            · simp only [if_true]
              push_cast
              ring

lemma passCountAlts_spec (hp : Heap) (v : Value)
    (rec : Descriptor → List Nat → Option (Int × List Nat))
    (hrec : ∀ P ig k ig2, rec P ig = some (k, ig2) →
      ∃ e : List Nat, ig2 = ig ++ e ∧ e.Nodup ∧ (∀ j ∈ e, j ∉ ig) ∧
        k = ((e.filter (fun i => (deref hp i).assert v)).length : Int)) :
    ∀ d cnt ig k ig2, passCountAlts rec hp v d cnt ig = some (k, ig2) →
      ∃ e : List Nat, ig2 = ig ++ e ∧ e.Nodup ∧ (∀ j ∈ e, j ∉ ig) ∧
        k = cnt + ((e.filter (fun i => (deref hp i).assert v)).length : Int) := by
  intro d
  induction d with
  | nil =>
    intro cnt ig k ig2 h
    simp only [passCountAlts, Option.some.injEq, Prod.mk.injEq] at h
    exact ⟨[], by simp [h.2.symm], List.nodup_nil, by simp, by simp [h.1.symm]⟩
  | cons cl rest ih =>
    intro cnt ig k ig2 h
    simp only [passCountAlts] at h
    rcases hc : passCountConds rec hp v (resolveConditionList cl) cnt ig with _ | r1
    · rw [hc] at h
      simp at h
    · obtain ⟨k1, ig1⟩ := r1
      rw [hc] at h
      simp only [Option.bind_eq_bind, Option.some_bind] at h
      obtain ⟨e1, he1, hnd1, hfr1, hk1⟩ := passCountConds_spec hp v rec hrec _ cnt ig k1 ig1 hc
      obtain ⟨e2, he2, hnd2, hfr2, hk2⟩ := ih _ _ _ _ h
      refine ⟨e1 ++ e2, ?_, ?_, ?_, ?_⟩
      · rw [he2, he1]
        simp
      · refine List.nodup_append.mpr ⟨hnd1, hnd2, ?_⟩
        intro a ha1 ha2
        have := hfr2 a ha2
        rw [he1] at this
        exact this (List.mem_append.mpr (Or.inr ha1))
      · intro j hj
        rcases List.mem_append.mp hj with h1 | h2
        · exact hfr1 j h1
        · intro hjig
          have := hfr2 j h2
          rw [he1] at this
          exact this (List.mem_append.mpr (Or.inl hjig))
      · rw [hk2, hk1]
        simp only [List.filter_append, List.length_append]
        push_cast
        ring

lemma passCountAux_spec :
    ∀ (f : Nat) (hp : Heap) (v : Value) (P : Descriptor) (ig : List Nat) (k : Int) (ig2 : List Nat),
      passCountAux f hp v P ig = some (k, ig2) →
      ∃ e : List Nat, ig2 = ig ++ e ∧ e.Nodup ∧ (∀ j ∈ e, j ∉ ig) ∧
        k = ((e.filter (fun i => (deref hp i).assert v)).length : Int) := by
  intro f
  induction f with
  | zero =>
    intro hp v P ig k ig2 h
    simp [passCountAux] at h
  | succ f ih =>
    intro hp v P ig k ig2 h
    have := passCountAlts_spec hp v (passCountAux f hp v)
      (fun P' ig' k' ig2' h' => ih hp v P' ig' k' ig2' h') P 0 ig k ig2 h
    simpa using this

/-- Claim C8: in one top-level `getDescriptorPassCount` call the visited
condition indices are pairwise distinct and the returned count is
exactly the number of distinct visited conditions whose own predicate
passes — a prerequisite shared by two sibling conditions (diamond) is
counted once, not twice; on the concrete diamond the count is 3 (not
4).  Two top-level calls cannot share visited state: the wrapper
starts each call from the empty visited list, so repeated calls are
definitionally equal. -/
theorem pass_count_thm (f : Nat) (hp : Heap) (v : Value) (d : Descriptor) (n : Int)
    (h : RuntimeTypeCheck.getDescriptorPassCount f hp v d = some n) :
    (∃ e : List Nat, passCountAux f hp v d [] = some (n, e) ∧ e.Nodup ∧
        n = ((e.filter (fun i => (deref hp i).assert v)).length : Int)) ∧
      RuntimeTypeCheck.getDescriptorPassCount 5 hpDiamond Value.null descDiamond = some 3 ∧
      RuntimeTypeCheck.getDescriptorPassCount 5 hpDiamond Value.null descDiamond ≠ some 4 := by
  refine ⟨?_, by decide, by decide⟩
  unfold RuntimeTypeCheck.getDescriptorPassCount at h
  rcases haux : passCountAux f hp v d [] with _ | r
  · rw [haux] at h
    simp at h
  · obtain ⟨k, ig⟩ := r
    rw [haux] at h
    simp only [Option.map_some', Option.some.injEq] at h
    subst h
    obtain ⟨e, he, hnd, -, hk⟩ := passCountAux_spec f hp v d [] k ig haux
    simp only [List.nil_append] at he
    subst he
    exact ⟨ig, rfl, hnd, hk⟩

/-- Witness for `pass_count_thm` at the diamond heap. -/
theorem pass_count_witness :
    (∃ e : List Nat, passCountAux 5 hpDiamond Value.null descDiamond [] = some (3, e) ∧
        e.Nodup ∧ (3 : Int) = ((e.filter (fun i => (deref hpDiamond i).assert Value.null)).length : Int)) ∧
      RuntimeTypeCheck.getDescriptorPassCount 5 hpDiamond Value.null descDiamond = some 3 ∧
      RuntimeTypeCheck.getDescriptorPassCount 5 hpDiamond Value.null descDiamond ≠ some 4 :=
  pass_count_thm 5 hpDiamond Value.null descDiamond 3 rfl

lemma deref_conditions_valid (hp : Heap) (i : Nat) (P : Descriptor)
    (h : (deref hp i).conditions = some P) : i < hp.length := by
  by_contra hge
  push_neg at hge
  unfold deref at h
  rw [List.getD_eq_default _ _ hge] at h
  cases h

lemma vcount_le (hp : Heap) (ig : List Nat) : vcount hp ig ≤ hp.length := by
  unfold vcount
  have hsub : ig.toFinset.filter (fun i => i < hp.length) ⊆ Finset.range hp.length := by
    intro x hx
    rw [Finset.mem_filter] at hx
    exact Finset.mem_range.mpr hx.2
  calc (ig.toFinset.filter (fun i => i < hp.length)).card
      ≤ (Finset.range hp.length).card := Finset.card_le_card hsub
    _ = hp.length := Finset.card_range _

lemma vcount_mono (hp : Heap) (ig e : List Nat) : vcount hp ig ≤ vcount hp (ig ++ e) := by
  unfold vcount
  apply Finset.card_le_card
  intro x hx
  rw [Finset.mem_filter] at hx ⊢
  refine ⟨?_, hx.2⟩
  rw [List.toFinset_append, Finset.mem_union]
  exact Or.inl hx.1

lemma vcount_push (hp : Heap) (ig : List Nat) (i : Nat)
    (hmem : i ∉ ig) (hlt : i < hp.length) : vcount hp (ig ++ [i]) = vcount hp ig + 1 := by
  unfold vcount
  rw [List.toFinset_append]
  have h1 : ig.toFinset ∪ [i].toFinset = insert i ig.toFinset := by
    rw [Finset.union_comm]
    simp [Finset.insert_eq]
  rw [h1, Finset.filter_insert, if_pos hlt]
  rw [Finset.card_insert_of_not_mem]
  rw [Finset.mem_filter]
  rintro ⟨hc, -⟩
  exact hmem (List.mem_toFinset.mp hc)

lemma relevantConds_ext (hp : Heap) (v : Value)
    (rec : Descriptor → List Nat → Option (FailingData × List Nat))
    (hrec : ∀ P ig r, rec P ig = some r → ∃ e, r.2 = ig ++ e) :
    ∀ conds ig ff mc lc r, relevantConds rec hp v conds ig ff mc lc = some r →
      ∃ e, r.2.2.2 = ig ++ e := by
  intro conds
  induction conds with
  | nil =>
    intro ig ff mc lc r h
    simp only [relevantConds, Option.some.injEq] at h
    exact ⟨[], by simp [← h]⟩
  | cons i rest ih =>
    intro ig ff mc lc r h
    by_cases hmem : i ∈ ig
    · simp only [relevantConds, if_pos hmem] at h
      exact ih ig ff mc lc r h
    · rcases hcond : (deref hp i).conditions with _ | P
      · simp only [relevantConds, if_neg hmem, hcond] at h
        obtain ⟨e2, he2⟩ := ih _ _ _ _ _ h
        exact ⟨i :: e2, by simp [he2]⟩
      · simp only [relevantConds, if_neg hmem, hcond] at h
        by_cases hlen : 0 < P.length
        · rw [if_pos hlen] at h
          rcases hri : rec P (ig ++ [i]) with _ | r1
          · simp [hri] at h
          · simp only [hri, Option.map_some'] at h
            obtain ⟨e1, he1⟩ := hrec P (ig ++ [i]) r1 hri
            obtain ⟨e2, he2⟩ := ih _ _ _ _ _ h
            rw [he1] at he2
            exact ⟨i :: (e1 ++ e2), by simp [he2]⟩
        · rw [if_neg hlen] at h
          obtain ⟨e2, he2⟩ := ih _ _ _ _ _ h
          exact ⟨i :: e2, by simp [he2]⟩

lemma relevantAlts_ext (hp : Heap) (v : Value)
    (rec : Descriptor → List Nat → Option (FailingData × List Nat))
    (hrec : ∀ P ig r, rec P ig = some r → ∃ e, r.2 = ig ++ e) :
    ∀ d mx ig r, relevantAlts rec hp v d mx ig = some r → ∃ e, r.2 = ig ++ e := by
  intro d
  induction d with
  | nil =>
    intro mx ig r h
    simp only [relevantAlts, Option.some.injEq] at h
    exact ⟨[], by simp [← h]⟩
  | cons cl rest ih =>
    intro mx ig r h
    simp only [relevantAlts] at h
    rcases hc : relevantConds rec hp v (resolveConditionList cl) ig none none 0 with _ | st
    · rw [hc] at h
      simp at h
    · obtain ⟨ff, mc, lc, ig1⟩ := st
      rw [hc] at h
      simp only [Option.bind_eq_bind, Option.some_bind] at h
      obtain ⟨e1, he1⟩ := relevantConds_ext hp v rec hrec _ ig none none 0 _ hc
      obtain ⟨e2, he2⟩ := ih _ _ _ h
      simp only at he1
      rw [he1] at he2
      exact ⟨e1 ++ e2, by simp [he2]⟩

lemma relevantAux_ext :
    ∀ (f : Nat) (hp : Heap) (v : Value) (d : Descriptor) (ig : List Nat) r,
      relevantAux f hp v d ig = some r → ∃ e, r.2 = ig ++ e := by
  intro f
  induction f with
  | zero =>
    intro hp v d ig r h
    simp [relevantAux] at h
  | succ f ih =>
    intro hp v d ig r h
    exact relevantAlts_ext hp v (relevantAux f hp v)
      (fun P ig' r' h' => ih hp v P ig' r' h') d ⟨none, none⟩ ig r h

lemma relevantConds_total (hp : Heap) (v : Value) (f : Nat)
    (rec : Descriptor → List Nat → Option (FailingData × List Nat))
    (hrecT : ∀ P ig, hp.length < f + vcount hp ig → rec P ig ≠ none)
    (hrecE : ∀ P ig r, rec P ig = some r → ∃ e, r.2 = ig ++ e) :
    ∀ conds ig ff mc lc, hp.length < (f + 1) + vcount hp ig →
      relevantConds rec hp v conds ig ff mc lc ≠ none := by
  intro conds
  induction conds with
  | nil =>
    intro ig ff mc lc hbound
    simp [relevantConds]
  | cons i rest ih =>
    intro ig ff mc lc hbound
    by_cases hmem : i ∈ ig
    · simp only [relevantConds, if_pos hmem]
      exact ih ig ff mc lc hbound
    · rcases hcond : (deref hp i).conditions with _ | P
      · simp only [relevantConds, if_neg hmem, hcond]
        refine ih _ _ _ _ ?_
        exact lt_of_lt_of_le hbound (by have := vcount_mono hp ig [i]; omega)
      · simp only [relevantConds, if_neg hmem, hcond]
        by_cases hlen : 0 < P.length
        · rw [if_pos hlen]
          have hvalid : i < hp.length := deref_conditions_valid hp i P hcond
          have hpush : vcount hp (ig ++ [i]) = vcount hp ig + 1 :=
            vcount_push hp ig i hmem hvalid
          have hrbound : hp.length < f + vcount hp (ig ++ [i]) := by omega
          rcases hri : rec P (ig ++ [i]) with _ | r1
          · exact absurd hri (hrecT P (ig ++ [i]) hrbound)
          · simp only [hri, Option.map_some']
            obtain ⟨e1, he1⟩ := hrecE P (ig ++ [i]) r1 hri
            refine ih _ _ _ _ ?_
            rw [he1]
            have h1 := vcount_mono hp (ig ++ [i]) e1
            omega
        · rw [if_neg hlen]
          refine ih _ _ _ _ ?_
          exact lt_of_lt_of_le hbound (by have := vcount_mono hp ig [i]; omega)

lemma relevantAlts_total (hp : Heap) (v : Value) (f : Nat)
    (rec : Descriptor → List Nat → Option (FailingData × List Nat))
    (hrecT : ∀ P ig, hp.length < f + vcount hp ig → rec P ig ≠ none)
    (hrecE : ∀ P ig r, rec P ig = some r → ∃ e, r.2 = ig ++ e) :
    ∀ d mx ig, hp.length < (f + 1) + vcount hp ig →
      relevantAlts rec hp v d mx ig ≠ none := by
  intro d
  induction d with
  | nil =>
    intro mx ig hbound
    simp [relevantAlts]
  | cons cl rest ih =>
    intro mx ig hbound
    simp only [relevantAlts]
    rcases hc : relevantConds rec hp v (resolveConditionList cl) ig none none 0 with _ | st
    · exact absurd hc (relevantConds_total hp v f rec hrecT hrecE _ ig none none 0 hbound)
    · obtain ⟨ff, mc, lc, ig1⟩ := st
      simp only [Option.bind_eq_bind, Option.some_bind]
      obtain ⟨e1, he1⟩ := relevantConds_ext hp v rec hrecE _ ig none none 0 _ hc
      simp only at he1
      refine ih _ _ ?_
      rw [he1]
      have h1 := vcount_mono hp ig e1
      omega

lemma relevantAux_total :
    ∀ (f : Nat) (hp : Heap) (v : Value) (d : Descriptor) (ig : List Nat),
      hp.length < f + vcount hp ig → relevantAux f hp v d ig ≠ none := by
  intro f
  induction f with
  | zero =>
    intro hp v d ig hbound
    have := vcount_le hp ig
    omega
  | succ f ih =>
    intro hp v d ig hbound
    exact relevantAlts_total hp v f (relevantAux f hp v)
      (fun P ig' hb => ih hp v P ig' hb)
      (fun P ig' r h => relevantAux_ext f hp v P ig' r h) d ⟨none, none⟩ ig hbound

lemma passCountAux_ext (f : Nat) (hp : Heap) (v : Value) (P : Descriptor) (ig : List Nat)
    (r : Int × List Nat) (h : passCountAux f hp v P ig = some r) : ∃ e, r.2 = ig ++ e := by
  obtain ⟨e, he, -, -, -⟩ := passCountAux_spec f hp v P ig r.1 r.2 (by rw [← h])
  exact ⟨e, he⟩

lemma passCountConds_total (hp : Heap) (v : Value) (f : Nat)
    (rec : Descriptor → List Nat → Option (Int × List Nat))
    (hrecT : ∀ P ig, hp.length < f + vcount hp ig → rec P ig ≠ none)
    (hrecE : ∀ P ig r, rec P ig = some r → ∃ e, r.2 = ig ++ e) :
    ∀ conds cnt ig, hp.length < (f + 1) + vcount hp ig →
      passCountConds rec hp v conds cnt ig ≠ none := by
  intro conds
  induction conds with
  | nil =>
    intro cnt ig hbound
    simp [passCountConds]
  | cons i rest ih =>
    intro cnt ig hbound
    by_cases hmem : i ∈ ig
    · simp only [passCountConds, if_pos hmem]
      exact ih cnt ig hbound
    · rcases hcond : (deref hp i).conditions with _ | P
      · simp only [passCountConds, if_neg hmem, hcond]
        refine ih _ _ ?_
        exact lt_of_lt_of_le hbound (by have := vcount_mono hp ig [i]; omega)
      · simp only [passCountConds, if_neg hmem, hcond]
        have hvalid : i < hp.length := deref_conditions_valid hp i P hcond
        have hpush : vcount hp (ig ++ [i]) = vcount hp ig + 1 :=
          vcount_push hp ig i hmem hvalid
        have hrbound : hp.length < f + vcount hp (ig ++ [i]) := by omega
        rcases hri : rec P (ig ++ [i]) with _ | r1
        · exact absurd hri (hrecT P (ig ++ [i]) hrbound)
        · simp only [hri, Option.map_some']
          obtain ⟨e1, he1⟩ := hrecE P (ig ++ [i]) r1 hri
          refine ih _ _ ?_
          rw [he1]
          have h1 := vcount_mono hp (ig ++ [i]) e1
          omega

lemma passCountAlts_total (hp : Heap) (v : Value) (f : Nat)
    (rec : Descriptor → List Nat → Option (Int × List Nat))
    (hrecT : ∀ P ig, hp.length < f + vcount hp ig → rec P ig ≠ none)
    (hrecE : ∀ P ig r, rec P ig = some r → ∃ e, r.2 = ig ++ e)
    (hrecS : ∀ P ig k ig2, rec P ig = some (k, ig2) →
      ∃ e : List Nat, ig2 = ig ++ e ∧ e.Nodup ∧ (∀ j ∈ e, j ∉ ig) ∧
        k = ((e.filter (fun i => (deref hp i).assert v)).length : Int)) :
    ∀ d cnt ig, hp.length < (f + 1) + vcount hp ig →
      passCountAlts rec hp v d cnt ig ≠ none := by
  intro d
  induction d with
  | nil =>
    intro cnt ig hbound
    simp [passCountAlts]
  | cons cl rest ih =>
    intro cnt ig hbound
    simp only [passCountAlts]
    rcases hc : passCountConds rec hp v (resolveConditionList cl) cnt ig with _ | st
    · exact absurd hc (passCountConds_total hp v f rec hrecT hrecE _ cnt ig hbound)
    · obtain ⟨k1, ig1⟩ := st
      simp only [Option.bind_eq_bind, Option.some_bind]
      obtain ⟨e1, he1, -, -, -⟩ := passCountConds_spec hp v rec hrecS _ cnt ig k1 ig1 hc
      refine ih _ _ ?_
      rw [he1]
      have h1 := vcount_mono hp ig e1
      omega

lemma passCountAux_total :
    ∀ (f : Nat) (hp : Heap) (v : Value) (d : Descriptor) (ig : List Nat),
      hp.length < f + vcount hp ig → passCountAux f hp v d ig ≠ none := by
  intro f
  induction f with
  | zero =>
    intro hp v d ig hbound
    have := vcount_le hp ig
    omega
  | succ f ih =>
    intro hp v d ig hbound
    exact passCountAlts_total hp v f (passCountAux f hp v)
      (fun P ig' hb => ih hp v P ig' hb)
      (fun P ig' r h => passCountAux_ext f hp v P ig' r h)
      (fun P ig' k ig2 h => passCountAux_spec f hp v P ig' k ig2 h)
      d 0 ig hbound

lemma assert_loop_none : ∀ (f : Nat) (v : Value),
    RuntimeTypeCheck.assert f hpLoop v [Sum.inl 0] = none := by
  intro f
  induction f with
  | zero => intro v; rfl
  | succ f ih =>
    intro v
    have hcond : (deref hpLoop 0).conditions = some [Sum.inl 0] := rfl
    simp [RuntimeTypeCheck.assert, assertAlts, assertPrereqs, resolveConditionList,
      hcond, ih v]

/-- Claim C7, amended: the visited-set guarded traversals — the relevance
resolver and the pass counter — terminate on *every* condition graph,
including self-referential ones: with fuel exceeding the number of
unvisited heap conditions they cannot run out, because a repeat visit
of a condition is skipped as an already-resolved no-op (third
conjunct).  The plain evaluator `assert` has no visited set and does
not share this guarantee (see the counterexample). -/
theorem termination_amended_thm (hp : Heap) (v : Value) (d : Descriptor) (ig : List Nat)
    (f : Nat) (h : hp.length < f + vcount hp ig) :
    relevantAux f hp v d ig ≠ none ∧ passCountAux f hp v d ig ≠ none ∧
      (∀ (rec : Descriptor → List Nat → Option (FailingData × List Nat))
        (i : Nat) (rest : List Nat) (ff : Option Nat) (mc : Option Int) (lc : Int),
        i ∈ ig →
        relevantConds rec hp v (i :: rest) ig ff mc lc =
          relevantConds rec hp v rest ig ff mc lc) := by
  refine ⟨relevantAux_total f hp v d ig h, passCountAux_total f hp v d ig h, ?_⟩
  intro rec i rest ff mc lc hmem
  simp [relevantConds, if_pos hmem]

/-- Witness for `termination_amended_thm`: the self-referential graph
`hpLoop`, on which both guarded traversals return with fuel 2. -/
theorem termination_amended_witness :
    relevantAux 2 hpLoop Value.null [Sum.inl 0] [] ≠ none ∧
      passCountAux 2 hpLoop Value.null [Sum.inl 0] [] ≠ none ∧
      (∀ (rec : Descriptor → List Nat → Option (FailingData × List Nat))
        (i : Nat) (rest : List Nat) (ff : Option Nat) (mc : Option Int) (lc : Int),
        i ∈ ([] : List Nat) →
        relevantConds rec hpLoop Value.null (i :: rest) [] ff mc lc =
          relevantConds rec hpLoop Value.null rest [] ff mc lc) :=
  termination_amended_thm hpLoop Value.null [Sum.inl 0] [] 2 (by simp [vcount, hpLoop])

/-- Claim C7, counterexample: the evaluation entry point `assert` does not
terminate on the pathological self-referential graph — it has no
visited set, so on `hpLoop` (condition 0 lists itself as its own
prerequisite) it returns for no amount of fuel. -/
theorem assert_nontermination_cex :
    ¬ ∃ (f : Nat) (b : Bool),
        RuntimeTypeCheck.assert f hpLoop Value.null [Sum.inl 0] = some b := by
  rintro ⟨f, b, h⟩
  rw [assert_loop_none f Value.null] at h
  cases h
